import Mathlib

/-!
Verification of the `webbshop.py` inventory manager against its design
specification.

The Python source is shallowly embedded: Python `int` becomes `Int`,
Python `float` becomes `ℚ` (every IEEE double is a decimal rational
`n / 10^k`; the program only manufactures floats via `float(...)` applied
to decimal strings, so the rational carries the decimal value the string
denotes, which matches the spec's "modulo floating formatting precision"
reading), Python `str` becomes `String` (`List Char` at the file layer),
a file's contents become `List Char`, a raised exception becomes an
explicit `PyError` result, and `self.products` becomes a `List Product`
threaded through each operation.

Modeled subset of Python numeric parsing: `int(s)` / `float(s)` accept an
ASCII-whitespace-stripped, optionally signed decimal literal (for floats
also an optional fractional part and exponent).  Underscore digit
separators, unicode digits/whitespace and the `inf` / `infinity` / `nan`
forms are outside the model.  `str.lower` is modeled on ASCII letters.
-/

set_option maxRecDepth 100000

namespace Webbshop

/-- The Python exception kinds the program can hit. -/
inductive PyError where
  | valueError
  | typeError
  | keyError
  | eofError
deriving DecidableEq

/-- ASCII decimal digit test, as used by the modeled `int` / `float` parsers. -/
def isDigitC (c : Char) : Bool := decide ('0' ≤ c ∧ c ≤ '9')

/-- Numeric value of a digit character. -/
def digitVal (c : Char) : Nat := c.toNat - 48

/-- Digit character for a value below ten. -/
def digitChar : Nat → Char
  | 0 => '0'
  | 1 => '1'
  | 2 => '2'
  | 3 => '3'
  | 4 => '4'
  | 5 => '5'
  | 6 => '6'
  | 7 => '7'
  | 8 => '8'
  | 9 => '9'
  | _ => '*'

/-- Little-endian base-ten digits of `n`, with `n` itself as recursion fuel. -/
def toDigitsF : Nat → Nat → List Nat
  | 0, _ => []
  | fuel + 1, n => if n = 0 then [] else n % 10 :: toDigitsF fuel (n / 10)

/-- Little-endian base-ten digits of `n` (empty for zero). -/
def toDigits (n : Nat) : List Nat := toDigitsF n n

/-- Value of a little-endian digit list. -/
def ofDigitsLE : List Nat → Nat
  | [] => 0
  | d :: ds => d + 10 * ofDigitsLE ds

/-- Decimal rendering of a natural number, as Python's `str`. -/
def natReprL (n : Nat) : List Char :=
  if n = 0 then ['0'] else ((toDigits n).map digitChar).reverse

/-- Value of a big-endian digit-character list (no validity check). -/
def parseNatRaw (ds : List Char) : Nat := ds.foldl (fun a c => 10 * a + digitVal c) 0

/-- Decimal rendering of a Python `int`: `str` of the integer. -/
def intReprL (i : Int) : List Char :=
  if i < 0 then '-' :: natReprL i.natAbs else natReprL i.natAbs

/-- Python `str.strip` whitespace test (ASCII subset). -/
def isPyWs (c : Char) : Bool :=
  decide (c = ' ' ∨ c = '\t' ∨ c = '\n' ∨ c = '\r' ∨ c = '\x0b' ∨ c = '\x0c')

/-- Strip leading and trailing whitespace, as Python's numeric parsers do. -/
def pyStrip (cs : List Char) : List Char :=
  ((cs.dropWhile isPyWs).reverse.dropWhile isPyWs).reverse

/-- Split an optional leading sign: `true` means negative. -/
def splitSign (t : List Char) : Bool × List Char :=
  match t with
  | [] => (false, [])
  | c :: r => if c = '-' then (true, r) else if c = '+' then (false, r) else (false, c :: r)

/-- Model of Python `int(s)` on the documented decimal subset: optional
whitespace, optional sign, then one or more digits. -/
def parseIntL (cs : List Char) : Option Int :=
  let t := pyStrip cs
  let s := splitSign t
  if s.2 ≠ [] ∧ s.2.all isDigitC then
    some (if s.1 then -(parseNatRaw s.2 : Int) else (parseNatRaw s.2 : Int))
  else none

/-- Model of Python `float(s)` on the documented decimal subset: optional
whitespace and sign, digits with an optional point (at least one digit on
one side), and an optional decimal exponent. -/
def parseFloatL (cs : List Char) : Option ℚ :=
  let t := pyStrip cs
  let s := splitSign t
  let ip := s.2.takeWhile isDigitC
  let r1 := s.2.dropWhile isDigitC
  let fr : List Char × List Char :=
    match r1 with
    | '.' :: r => (r.takeWhile isDigitC, r.dropWhile isDigitC)
    | _ => ([], r1)
  if ip = [] ∧ fr.1 = [] then none
  else
    let mant : ℚ := (parseNatRaw (ip ++ fr.1) : ℚ) / (10 : ℚ) ^ fr.1.length
    match fr.2 with
    | [] => some (if s.1 then -mant else mant)
    | c :: r3 =>
      if c = 'e' ∨ c = 'E' then
        let es := splitSign r3
        if es.2 ≠ [] ∧ es.2.all isDigitC then
          let ex : Int := if es.1 then -(parseNatRaw es.2 : Int) else (parseNatRaw es.2 : Int)
          let v := mant * (10 : ℚ) ^ ex
          some (if s.1 then -v else v)
        else none
      else none

/-- Multiplicity of `p` in `n`, computed with explicit fuel. -/
def pMult (p : Nat) : Nat → Nat → Nat
  | 0, _ => 0
  | fuel + 1, n => if 2 ≤ p ∧ p ∣ n ∧ n ≠ 0 then pMult p fuel (n / p) + 1 else 0

/-- Digit string of `m` with a decimal point `k` places from the right
(padding with zeros as needed); `str` of a nonnegative float prints this way,
with a trailing `.0` for integral values. -/
def decimalDigits (m k : Nat) : List Char :=
  if k = 0 then natReprL m ++ ['.', '0']
  else
    let ds := natReprL m
    let pad := List.replicate (k + 1 - ds.length) '0' ++ ds
    pad.take (pad.length - k) ++ '.' :: pad.drop (pad.length - k)

/-- Model of Python `str(float)`: the shortest decimal string denoting the
value.  Under the decimal-rational reading of floats this is the plain
decimal expansion (scientific notation for extreme magnitudes is a
formatting variation the spec waives).  Defined for all rationals; the
branch for non-decimal denominators is unreachable from program values. -/
def floatReprL (q : ℚ) : List Char :=
  let den := q.den
  let a := pMult 2 den den
  let b := pMult 5 den den
  if den = 2 ^ a * 5 ^ b then
    let k := max a b
    let c := 2 ^ (k - a) * 5 ^ (k - b)
    let s := decimalDigits (q.num.natAbs * c) k
    if q.num < 0 then '-' :: s else s
  else natReprL q.num.natAbs

/-- A rational that denotes a decimal number, the value domain of the
modeled Python floats. -/
def IsDecimal (q : ℚ) : Prop := ∃ (n : Int) (k : Nat), q = (n : ℚ) / 10 ^ k

/-! ### The file layer

`save_data` opens the file with `newline=''` and uses `csv.DictWriter`
(excel dialect: comma delimiter, minimal quoting with a doubled `"` as
escape, `\r\n` record terminator).  `load_data` opens the file *without*
`newline=''`, so the text stream passes through universal-newline
translation (`\r\n` and lone `\r` both become `\n`) before
`csv.DictReader` sees it.  Both sides are embedded below; a file's
contents are a `List Char`. -/

/-- Universal-newline translation performed by `open(filename, 'r')`. -/
def unl : List Char → List Char
  | [] => []
  | [c] => if c = '\r' then ['\n'] else [c]
  | c :: d :: rest =>
    if c = '\r' then
      if d = '\n' then '\n' :: unl rest else '\n' :: unl (d :: rest)
    else c :: unl (d :: rest)

/-- Double every quote character, the csv writer's escape. -/
def escapeQuotes : List Char → List Char
  | [] => []
  | c :: rest => if c = '"' then '"' :: '"' :: escapeQuotes rest else c :: escapeQuotes rest

/-- QUOTE_MINIMAL test: a field is quoted iff it contains the delimiter,
the quote character, or a line-terminator character. -/
def needsQuote (f : List Char) : Bool :=
  f.any fun c => decide (c = ',' ∨ c = '"' ∨ c = '\r' ∨ c = '\n')

/-- Encode one csv field, quoting when needed. -/
def encodeField (f : List Char) : List Char :=
  if needsQuote f then '"' :: escapeQuotes f ++ ['"'] else f

/-- Encode one csv record: fields joined by commas, then `\r\n`. -/
def encodeCells : List (List Char) → List Char
  | [] => ['\r', '\n']
  | [f] => encodeField f ++ ['\r', '\n']
  | f :: fs => encodeField f ++ ',' :: encodeCells fs

/-- Proof artifact: the same record encoding with the `\n` terminator it
has after universal-newline translation. -/
def encodeCellsLF : List (List Char) → List Char
  | [] => ['\n']
  | [f] => encodeField f ++ ['\n']
  | f :: fs => encodeField f ++ ',' :: encodeCellsLF fs

/-- Consume an unquoted field: characters up to a delimiter or newline. -/
def takeUnquoted : List Char → List Char × List Char
  | [] => ([], [])
  | c :: rest =>
    if c = ',' ∨ c = '\n' then ([], c :: rest)
    else
      let p := takeUnquoted rest
      (c :: p.1, p.2)

/-- Consume the remainder of a quoted field (opening quote already read):
a doubled quote is an escaped quote, a lone closing quote ends the quoted
part and any tail up to the next delimiter is appended, as the non-strict
csv reader does. -/
def takeQuoted : List Char → List Char × List Char
  | [] => ([], [])
  | c :: rest =>
    if c = '"' then
      match rest with
      | '"' :: rest' =>
        let p := takeQuoted rest'
        ('"' :: p.1, p.2)
      | _ => takeUnquoted rest
    else
      let p := takeQuoted rest
      (c :: p.1, p.2)

/-- Consume one csv field; quoting is recognized only at field start. -/
def takeField : List Char → List Char × List Char
  | [] => ([], [])
  | c :: rest => if c = '"' then takeQuoted rest else takeUnquoted (c :: rest)

/-- Consume one csv record (fuelled on the number of fields). -/
def takeRecordF : Nat → List Char → List (List Char) × List Char
  | 0, cs => ([], cs)
  | fuel + 1, cs =>
    let p := takeField cs
    match p.2 with
    | ',' :: r =>
      let q := takeRecordF fuel r
      (p.1 :: q.1, q.2)
    | '\n' :: r => ([p.1], r)
    | _ => ([p.1], p.2)

/-- Split a translated text stream into csv records; a blank line is the
empty record, which `DictReader` skips. -/
def parseRecordsF : Nat → List Char → List (List (List Char))
  | 0, _ => []
  | fuel + 1, cs =>
    match cs with
    | [] => []
    | c :: rest =>
      if c = '\n' then [] :: parseRecordsF fuel rest
      else
        let p := takeRecordF (cs.length + 1) cs
        p.1 :: parseRecordsF fuel p.2

/-- All csv records of a translated text stream. -/
def parseRecords (cs : List Char) : List (List (List Char)) := parseRecordsF cs.length cs

/-! ### The data model and the Inventory operations -/

/-- One catalog item; `Product.__init__` stores the five fields verbatim. -/
structure Product where
  id : Int
  name : String
  desc : String
  price : ℚ
  quantity : Int
deriving DecidableEq

/-- The header cells `id,name,desc,price,quantity` used by save and load. -/
def hdrCells : List (List Char) :=
  [['i', 'd'], "name".data, "desc".data, "price".data, "quantity".data]

/-- The csv cells `DictWriter.writerow` receives for one product, in
fieldnames order with non-string values passed through `str`. -/
def rowOf (p : Product) : List (List Char) :=
  [intReprL p.id, p.name.data, p.desc.data, floatReprL p.price, intReprL p.quantity]

/-- `Inventory.save_data`: the full contents written to the file — the
header row followed by one record per product. -/
def save_data (ps : List Product) : List Char :=
  encodeCells hdrCells ++ (ps.map fun p => encodeCells (rowOf p)).flatten

/-- Look up one cell of a `DictReader` row: an absent column name raises
`KeyError`; a row shorter than the header yields the `None` restval, whose
numeric conversion raises `TypeError`.  (For the two string columns the
program would store that `None` verbatim; the model reports it as the same
`TypeError` — with the program's own header the difference is
unobservable, since any row short enough to lose a string cell also loses
a numeric cell.) -/
def getCell (header row : List (List Char)) (key : List Char) : Except PyError (List Char) :=
  match header.findIdx? (fun c => decide (c = key)) with
  | none => .error .keyError
  | some i =>
    match row.get? i with
    | none => .error .typeError
    | some v => .ok v

/-- Convert an `Option` parse result into the `ValueError` that
`int` / `float` raise on failure. -/
def pFail {α : Type} (o : Option α) : Except PyError α :=
  match o with
  | some a => .ok a
  | none => .error .valueError

/-- Build one `Product` from a csv row, with lookups and conversions in
the order the `Product(...)` call evaluates them. -/
def rowToProduct (header row : List (List Char)) : Except PyError Product := do
  let idC ← getCell header row ['i', 'd']
  let idV ← pFail (parseIntL idC)
  let nameC ← getCell header row "name".data
  let descC ← getCell header row "desc".data
  let priceC ← getCell header row "price".data
  let priceV ← pFail (parseFloatL priceC)
  let qtyC ← getCell header row "quantity".data
  let qtyV ← pFail (parseIntL qtyC)
  return ⟨idV, ⟨nameC⟩, ⟨descC⟩, priceV, qtyV⟩

/-- Process the data rows in order, appending each parsed product to the
inventory as the Python loop does; the first failing row stops the loop
with its exception, keeping the rows already appended. -/
def processRows (header : List (List Char)) :
    List (List (List Char)) → List Product → List Product × Option PyError
  | [], acc => (acc, none)
  | row :: rest, acc =>
    if row = [] then processRows header rest acc
    else
      match rowToProduct header row with
      | .ok p => processRows header rest (acc ++ [p])
      | .error e => (acc, some e)

/-- `Inventory.load_data`: `none` stands for an absent file (tolerated,
inventory untouched); otherwise the text stream is newline-translated and
parsed, the first record becomes the `DictReader` fieldnames, and each
further non-blank record is appended as a product until an error escapes. -/
def load_data (content : Option (List Char)) (inv : List Product) :
    List Product × Option PyError :=
  match content with
  | none => (inv, none)
  | some s =>
    match parseRecords (unl s) with
    | [] => (inv, none)
    | header :: rows => processRows header rows inv

/-- `Inventory.get_next_id`: 1 on an empty inventory, else the running
`max` over the ids plus one. -/
def get_next_id (ps : List Product) : Int :=
  match ps with
  | [] => 1
  | p :: rest => rest.foldl (fun m q => max m q.id) p.id + 1

/-- `Inventory.get_product_by_id`: first product with the id, else `None`. -/
def get_product_by_id (ps : List Product) (pid : Int) : Option Product :=
  match ps with
  | [] => none
  | p :: rest => if p.id = pid then some p else get_product_by_id rest pid

/-- The renumbering loop `for i, product in enumerate(self.products):
product.id = i + 1`, with `n` the id for the first element. -/
def reindexFrom (n : Int) : List Product → List Product
  | [] => []
  | p :: ps => { p with id := n } :: reindexFrom (n + 1) ps

/-- `Inventory.remove_product`: drop every product carrying the id, then
renumber all remaining ids to `1, 2, …` in sequence order. -/
def remove_product (pid : Int) (ps : List Product) : List Product :=
  reindexFrom 1 (ps.filter fun p => decide (p.id ≠ pid))

/-- Replace the first product carrying the id — the in-place mutation of
the object `get_product_by_id` returned. -/
def setFirstById (pid : Int) (f : Product → Product) : List Product → List Product
  | [] => []
  | p :: ps => if p.id = pid then f p :: ps else p :: setFirstById pid f ps

/-- `Inventory.update_product`: nothing happens when the id is absent;
otherwise the named field of the found product is assigned, with `price`
and `quantity` parsed first — a parse failure raises `ValueError` before
any assignment — and an unrecognized field name falling through all four
branches. -/
def update_product (pid : Int) (field newValue : String) (ps : List Product) :
    List Product × Option PyError :=
  match get_product_by_id ps pid with
  | none => (ps, none)
  | some _ =>
    if field = "name" then (setFirstById pid (fun p => { p with name := newValue }) ps, none)
    else if field = "desc" then (setFirstById pid (fun p => { p with desc := newValue }) ps, none)
    else if field = "price" then
      match parseFloatL newValue.data with
      | none => (ps, some .valueError)
      | some v => (setFirstById pid (fun p => { p with price := v }) ps, none)
    else if field = "quantity" then
      match parseIntL newValue.data with
      | none => (ps, some .valueError)
      | some v => (setFirstById pid (fun p => { p with quantity := v }) ps, none)
    else (ps, none)

/-- `Inventory.add_product`: append. -/
def add_product (p : Product) (ps : List Product) : List Product := ps ++ [p]

/-- The ids of an inventory in sequence order. -/
def idsOf (ps : List Product) : List Int := ps.map Product.id

/-- The contiguous id sequence `1, …, n`. -/
def rangeIds (n : Nat) : List Int := (List.range n).map fun i : Nat => (i : Int) + 1

/-! ### The session loop -/

/-- Python `str.lower` on the ASCII letters. -/
def pyLower (s : String) : String := ⟨s.data.map Char.toLower⟩

/-- Result of one iteration of the `while True` loop in `main`: continue
with a possibly updated inventory and the unread input, exit after saving
the shown file contents, or die on an uncaught exception. -/
inductive Outcome where
  | next (inv : List Product) (rest : List String)
  | exited (inv : List Product) (file : List Char)
  | crashed (e : PyError) (inv : List Product)
deriving DecidableEq

/-- One iteration of `main`'s loop, driven by the queue of strings the
user will type.  An exhausted queue models `input()` raising `EOFError`,
which no branch catches.  The `add` branch performs its `float` / `int`
conversions outside any `try`, so a failure there crashes; the `view`,
`update` and `delete` branches parse the id inside `try … except
ValueError`, and `update`'s field assignment happens inside that same
`try`. -/
def mainStep (inv : List Product) : List String → Outcome
  | [] => .crashed .eofError inv
  | action :: rest =>
    let a := pyLower action
    if a = "exit" then .exited inv (save_data inv)
    else if a = "add" then
      match rest with
      | name :: desc :: priceS :: qtyS :: rest' =>
        match parseFloatL priceS.data with
        | none => .crashed .valueError inv
        | some pv =>
          match parseIntL qtyS.data with
          | none => .crashed .valueError inv
          | some qv =>
            .next (add_product ⟨get_next_id inv, name, desc, pv, qv⟩ inv) rest'
      | _ => .crashed .eofError inv
    else if a = "view" then
      match rest with
      | [] => .crashed .eofError inv
      | idS :: rest' =>
        match parseIntL idS.data with
        | none => .next inv rest'
        | some pid =>
          match get_product_by_id inv pid with
          | some _ =>
            match rest' with
            | [] => .crashed .eofError inv
            | _ :: rest'' => .next inv rest''
          | none => .next inv rest'
    else if a = "update" then
      match rest with
      | [] => .crashed .eofError inv
      | idS :: rest' =>
        match parseIntL idS.data with
        | none => .next inv rest'
        | some pid =>
          match get_product_by_id inv pid with
          | none => .next inv rest'
          | some _ =>
            match rest' with
            | fieldS :: newS :: rest'' =>
              .next (update_product pid (pyLower fieldS) newS inv).1 rest''
            | _ => .crashed .eofError inv
    else if a = "delete" then
      match rest with
      | [] => .crashed .eofError inv
      | idS :: rest' =>
        match parseIntL idS.data with
        | none => .next inv rest'
        | some pid =>
          match get_product_by_id inv pid with
          | some _ => .next (remove_product pid inv) rest'
          | none => .next inv rest'
    else .next inv rest

/-- Inventories reachable by the program's own operations: the first
session starts with no data file, and every later state arises by the
`add` branch (id from `get_next_id`, price and quantity obtained from
successful `float` / `int` parses of the typed strings), by `update`, by
`delete`, or by saving on exit and loading the saved file at the next
startup. -/
inductive Reachable : List Product → Prop
  | boot : Reachable (load_data none []).1
  | load (inv : List Product) : Reachable inv →
      Reachable (load_data (some (save_data inv)) []).1
  | add (inv : List Product) (name desc priceS qtyS : String) (pv : ℚ) (qv : Int) :
      Reachable inv →
      parseFloatL priceS.data = some pv →
      parseIntL qtyS.data = some qv →
      Reachable (add_product ⟨get_next_id inv, name, desc, pv, qv⟩ inv)
  | update (inv : List Product) (pid : Int) (field newValue : String) :
      Reachable inv → Reachable (update_product pid field newValue inv).1
  | remove (inv : List Product) (pid : Int) :
      Reachable inv → Reachable (remove_product pid inv)

/-! ### Digit and integer round-trip lemmas -/

theorem ofDigitsLE_toDigitsF (fuel : Nat) : ∀ n : Nat, n ≤ fuel →
    ofDigitsLE (toDigitsF fuel n) = n := by
  induction fuel with
  | zero => intro n h; interval_cases n; rfl
  | succ fuel ih =>
    intro n h
    by_cases h0 : n = 0
    · subst h0; simp [toDigitsF, ofDigitsLE]
    · have hdiv : n / 10 ≤ fuel := by
        have := Nat.div_lt_self (Nat.pos_of_ne_zero h0) (by norm_num : (1:Nat) < 10)
        omega
      simp only [toDigitsF, if_neg h0, ofDigitsLE, ih (n / 10) hdiv]
      omega

theorem toDigitsF_lt_ten (fuel : Nat) : ∀ n : Nat, ∀ d ∈ toDigitsF fuel n, d < 10 := by
  induction fuel with
  | zero => intro n d hd; simp [toDigitsF] at hd
  | succ fuel ih =>
    intro n d hd
    by_cases h0 : n = 0
    · subst h0; simp [toDigitsF] at hd
    · simp only [toDigitsF, if_neg h0, List.mem_cons] at hd
      rcases hd with h | h
      · subst h; exact Nat.mod_lt _ (by norm_num)
      · exact ih _ _ h

theorem ofDigitsLE_toDigits (n : Nat) : ofDigitsLE (toDigits n) = n :=
  ofDigitsLE_toDigitsF n n le_rfl

theorem toDigits_ne_nil (n : Nat) (h : n ≠ 0) : toDigits n ≠ [] := by
  intro he
  have := ofDigitsLE_toDigits n
  rw [he] at this
  simp [ofDigitsLE] at this
  omega

theorem digitVal_digitChar (d : Nat) (h : d < 10) : digitVal (digitChar d) = d := by
  interval_cases d <;> rfl

theorem isDigitC_digitChar (d : Nat) (h : d < 10) : isDigitC (digitChar d) = true := by
  interval_cases d <;> rfl

theorem foldl_digit_chars (ds : List Nat) (h : ∀ d ∈ ds, d < 10) (a : Nat) :
    List.foldl (fun a c => 10 * a + digitVal c) a ((ds.map digitChar).reverse) =
      a * 10 ^ ds.length + ofDigitsLE ds := by
  induction ds generalizing a with
  | nil => simp [ofDigitsLE]
  | cons d ds ih =>
    have hd : d < 10 := h d (List.mem_cons_self d ds)
    have hds : ∀ x ∈ ds, x < 10 := fun x hx => h x (List.mem_cons_of_mem d hx)
    simp only [List.map_cons, List.reverse_cons, List.foldl_append, List.foldl_cons,
      List.foldl_nil, ih hds a, ofDigitsLE, List.length_cons, digitVal_digitChar d hd]
    ring

theorem parseNatRaw_natReprL (n : Nat) : parseNatRaw (natReprL n) = n := by
  by_cases h0 : n = 0
  · subst h0; rfl
  · have := foldl_digit_chars (toDigits n) (toDigitsF_lt_ten n n) 0
    simpa [parseNatRaw, natReprL, h0, ofDigitsLE_toDigits] using this

theorem natReprL_ne_nil (n : Nat) : natReprL n ≠ [] := by
  by_cases h0 : n = 0
  · subst h0; simp [natReprL]
  · simp only [natReprL, if_neg h0, ne_eq, List.reverse_eq_nil_iff, List.map_eq_nil_iff]
    exact toDigits_ne_nil n h0

theorem natReprL_all_digits (n : Nat) : ∀ c ∈ natReprL n, isDigitC c = true := by
  by_cases h0 : n = 0
  · subst h0; intro c hc; simp [natReprL] at hc; subst hc; rfl
  · intro c hc
    simp only [natReprL, if_neg h0, List.mem_reverse, List.mem_map] at hc
    obtain ⟨d, hd, rfl⟩ := hc
    exact isDigitC_digitChar d (toDigitsF_lt_ten n n d hd)

theorem isDigitC_not_ws (c : Char) (h : isDigitC c = true) : isPyWs c = false := by
  simp only [isDigitC, decide_eq_true_eq] at h
  simp only [isPyWs, decide_eq_false_iff_not]
  rintro (rfl | rfl | rfl | rfl | rfl | rfl) <;> revert h <;> decide

theorem dropWhile_eq_self_of (p : Char → Bool) (cs : List Char)
    (h : ∀ c, cs.head? = some c → p c = false) : cs.dropWhile p = cs := by
  cases cs with
  | nil => rfl
  | cons c rest => simp [List.dropWhile_cons, h c rfl]

theorem pyStrip_eq_self (cs : List Char) (h : ∀ c ∈ cs, isPyWs c = false) :
    pyStrip cs = cs := by
  unfold pyStrip
  rw [dropWhile_eq_self_of _ cs, dropWhile_eq_self_of _ cs.reverse, List.reverse_reverse]
  · intro c hc
    apply h
    have : c ∈ cs.reverse := List.mem_of_mem_head? (by rw [hc]; exact rfl)
    simpa using this
  · intro c hc
    exact h c (List.mem_of_mem_head? (by rw [hc]; exact rfl))

theorem isDigitC_ne_signs (c : Char) (h : isDigitC c = true) : c ≠ '-' ∧ c ≠ '+' := by
  simp only [isDigitC, decide_eq_true_eq] at h
  constructor <;> rintro rfl <;> revert h <;> decide

theorem splitSign_of_digit (c : Char) (cs : List Char) (h : isDigitC c = true) :
    splitSign (c :: cs) = (false, c :: cs) := by
  obtain ⟨h1, h2⟩ := isDigitC_ne_signs c h
  simp [splitSign, h1, h2]

theorem parseIntL_natReprL (n : Nat) : parseIntL (natReprL n) = some (n : Int) := by
  have hdig := natReprL_all_digits n
  have hne := natReprL_ne_nil n
  have hstrip : pyStrip (natReprL n) = natReprL n :=
    pyStrip_eq_self _ fun c hc => isDigitC_not_ws c (hdig c hc)
  obtain ⟨c, cs, hcs⟩ := List.exists_cons_of_ne_nil hne
  have hsign : splitSign (natReprL n) = (false, natReprL n) := by
    rw [hcs]
    exact splitSign_of_digit c cs (hdig c (by rw [hcs]; exact List.mem_cons_self c cs))
  simp [parseIntL, hstrip, hsign, hne, List.all_eq_true.mpr hdig, parseNatRaw_natReprL]

theorem parseIntL_intReprL (i : Int) : parseIntL (intReprL i) = some i := by
  by_cases hneg : i < 0
  · have hdig := natReprL_all_digits i.natAbs
    have hne := natReprL_ne_nil i.natAbs
    have hstrip : pyStrip ('-' :: natReprL i.natAbs) = '-' :: natReprL i.natAbs := by
      apply pyStrip_eq_self
      intro c hc
      rcases List.mem_cons.mp hc with rfl | hc
      · rfl
      · exact isDigitC_not_ws c (hdig c hc)
    have habs : ((i.natAbs : Int)) = -i := by omega
    simp [parseIntL, intReprL, hneg, hstrip, splitSign, hne,
      List.all_eq_true.mpr hdig, parseNatRaw_natReprL, habs]
  · have hval : ((i.natAbs : Int)) = i := by omega
    rw [intReprL, if_neg hneg]
    rw [parseIntL_natReprL, hval]

/-! ### Decimal rationals: float printing and parsing invert each other -/

theorem pMult_spec (p : Nat) (hp : 2 ≤ p) (fuel : Nat) : ∀ n, n ≠ 0 → n ≤ fuel →
    p ^ pMult p fuel n ∣ n ∧ ¬ p ^ (pMult p fuel n + 1) ∣ n := by
  induction fuel with
  | zero => intro n h0 hle; omega
  | succ fuel ih =>
    intro n h0 hle
    by_cases hdvd : p ∣ n
    · have hcond : 2 ≤ p ∧ p ∣ n ∧ n ≠ 0 := ⟨hp, hdvd, h0⟩
      have hq0 : n / p ≠ 0 := by
        have hpn : p ≤ n := Nat.le_of_dvd (Nat.pos_of_ne_zero h0) hdvd
        have := Nat.div_pos hpn (by omega)
        omega
      have hqle : n / p ≤ fuel := by
        have := Nat.div_lt_self (Nat.pos_of_ne_zero h0) (by omega : 1 < p)
        omega
      obtain ⟨ih1, ih2⟩ := ih (n / p) hq0 hqle
      have hn : n = p * (n / p) := (Nat.mul_div_cancel' hdvd).symm
      simp only [pMult, if_pos hcond]
      constructor
      · have h1 : p ^ (pMult p fuel (n / p) + 1) ∣ p * (n / p) := by
          rw [pow_succ, mul_comm _ p]
          exact Nat.mul_dvd_mul_left p ih1
        rwa [← hn] at h1
      · intro hcontra
        apply ih2
        have h2 : p * p ^ (pMult p fuel (n / p) + 1) ∣ p * (n / p) := by
          rw [← pow_succ', ← hn]
          exact hcontra
        exact (Nat.mul_dvd_mul_iff_left (by omega : 0 < p)).mp h2
    · have hcond : ¬ (2 ≤ p ∧ p ∣ n ∧ n ≠ 0) := by tauto
      simp only [pMult, if_neg hcond]
      exact ⟨by simpa using Nat.one_dvd n, by simpa using hdvd⟩

theorem pMult_unique (p : Nat) (hp : 2 ≤ p) (n a b : Nat)
    (ha1 : p ^ a ∣ n) (ha2 : ¬ p ^ (a + 1) ∣ n)
    (hb1 : p ^ b ∣ n) (hb2 : ¬ p ^ (b + 1) ∣ n) : a = b := by
  by_contra hne
  rcases Nat.lt_or_ge a b with h | h
  · exact ha2 (dvd_trans (pow_dvd_pow p (by omega)) hb1)
  · have : a ≠ b := hne
    exact hb2 (dvd_trans (pow_dvd_pow p (by omega)) ha1)

theorem den_decomp (d : Nat) (hd : d ≠ 0) (k : Nat) (h : d ∣ 10 ^ k) :
    d = 2 ^ pMult 2 d d * 5 ^ pMult 5 d d := by
  obtain ⟨h2a, h2b⟩ := pMult_spec 2 le_rfl d d hd le_rfl
  obtain ⟨h5a, h5b⟩ := pMult_spec 5 (by omega) d d hd le_rfl
  set a := pMult 2 d d with ha
  set b := pMult 5 d d with hb
  obtain ⟨m, hm⟩ := h2a
  have hmd : m ∣ d := Dvd.intro_left _ hm.symm
  have h2m : ¬ 2 ∣ m := by
    rintro ⟨t, ht⟩
    apply h2b
    rw [hm, ht, pow_succ]
    exact ⟨t, by ring⟩
  have hm10 : m ∣ 2 ^ k * 5 ^ k := by
    have h10 : (10 : Nat) ^ k = 2 ^ k * 5 ^ k := by
      rw [← Nat.mul_pow]
    rw [← h10]
    exact hmd.trans h
  have hcop : Nat.Coprime m 2 :=
    ((Nat.Prime.coprime_iff_not_dvd Nat.prime_two).mpr h2m).symm
  have hcop' : Nat.Coprime m (2 ^ k) := Nat.Coprime.pow_right k hcop
  have hm5 : m ∣ 5 ^ k := hcop'.dvd_of_dvd_mul_left hm10
  obtain ⟨j, hjk, hj⟩ := (Nat.dvd_prime_pow (by norm_num)).mp hm5
  have h5j1 : 5 ^ j ∣ d := by
    rw [hm, hj]
    exact Dvd.intro_left _ rfl
  have h5j2 : ¬ 5 ^ (j + 1) ∣ d := by
    intro hcontra
    rw [hm, hj] at hcontra
    have hbase : Nat.Coprime 5 2 := by decide
    have hcop5 : Nat.Coprime (5 ^ (j + 1)) (2 ^ a) := Nat.Coprime.pow _ _ hbase
    have h5dvd : (5 : Nat) ^ (j + 1) ∣ 5 ^ j := hcop5.dvd_of_dvd_mul_left hcontra
    have hle : j + 1 ≤ j := (Nat.pow_dvd_pow_iff_le_right (by omega : (1:ℕ) < 5)).mp h5dvd
    omega
  have hbj : b = j := pMult_unique 5 (by omega) d b j h5a h5b h5j1 h5j2
  rw [hm, hj, hbj]

theorem takeWhile_append_stop (p : Char → Bool) (xs ys : List Char) (y : Char)
    (hxs : ∀ x ∈ xs, p x = true) (hy : p y = false) :
    (xs ++ y :: ys).takeWhile p = xs ∧ (xs ++ y :: ys).dropWhile p = y :: ys := by
  induction xs with
  | nil => simp [List.takeWhile_cons, List.dropWhile_cons, hy]
  | cons x xs ih =>
    have hx : p x = true := hxs x (List.mem_cons_self x xs)
    have ih' := ih fun a ha => hxs a (List.mem_cons_of_mem x ha)
    simp [List.takeWhile_cons, List.dropWhile_cons, hx, ih'.1, ih'.2]

theorem takeWhile_all_eq (p : Char → Bool) (xs : List Char)
    (hxs : ∀ x ∈ xs, p x = true) :
    xs.takeWhile p = xs ∧ xs.dropWhile p = [] := by
  induction xs with
  | nil => simp
  | cons x xs ih =>
    have hx : p x = true := hxs x (List.mem_cons_self x xs)
    have ih' := ih fun a ha => hxs a (List.mem_cons_of_mem x ha)
    simp [List.takeWhile_cons, List.dropWhile_cons, hx, ih'.1, ih'.2]

theorem parseNatRaw_zeros (z : Nat) (ds : List Char) :
    parseNatRaw (List.replicate z '0' ++ ds) = parseNatRaw ds := by
  induction z with
  | zero => simp
  | succ z ih => simpa [parseNatRaw, List.replicate_succ] using ih

theorem parseNatRaw_append_digit (xs : List Char) (c : Char) :
    parseNatRaw (xs ++ [c]) = 10 * parseNatRaw xs + digitVal c := by
  simp [parseNatRaw, List.foldl_append]

/-- Structure of `decimalDigits`: a nonempty block of digits, a point, a
block of digits, denoting `m / 10^k`. -/
theorem decimalDigits_struct (m k : Nat) :
    ∃ pre post : List Char,
      decimalDigits m k = pre ++ '.' :: post ∧ pre ≠ [] ∧ post ≠ [] ∧
      (∀ c ∈ pre, isDigitC c = true) ∧ (∀ c ∈ post, isDigitC c = true) ∧
      ((parseNatRaw (pre ++ post) : ℚ) / 10 ^ post.length = (m : ℚ) / 10 ^ k) := by
  by_cases hk : k = 0
  · subst hk
    refine ⟨natReprL m, ['0'], by simp [decimalDigits], natReprL_ne_nil m, by simp,
      natReprL_all_digits m, ?_, ?_⟩
    · intro c hc
      simp at hc
      subst hc
      rfl
    · have hv : parseNatRaw (natReprL m ++ ['0']) = 10 * m := by
        rw [parseNatRaw_append_digit, parseNatRaw_natReprL]
        rfl
      rw [hv]
      push_cast
      simp only [List.length_singleton, pow_one, pow_zero, div_one]
      rw [mul_comm, mul_div_assoc, div_self (by norm_num : (10:ℚ) ≠ 0), mul_one]
  · have hdl : 1 ≤ (natReprL m).length := by
      have := natReprL_ne_nil m
      cases h : natReprL m with
      | nil => exact absurd h this
      | cons a l => simp [h]
    set ds := natReprL m with hds
    set pad := List.replicate (k + 1 - ds.length) '0' ++ ds with hpad
    have hpadlen : k + 1 ≤ pad.length := by
      rw [hpad]
      simp only [List.length_append, List.length_replicate]
      omega
    have hpaddig : ∀ c ∈ pad, isDigitC c = true := by
      intro c hc
      rw [hpad] at hc
      rcases List.mem_append.mp hc with h | h
      · rw [List.eq_of_mem_replicate h]
        rfl
      · exact natReprL_all_digits m c h
    have hpadval : parseNatRaw pad = m := by
      rw [hpad, parseNatRaw_zeros, parseNatRaw_natReprL]
    refine ⟨pad.take (pad.length - k), pad.drop (pad.length - k), ?_, ?_, ?_, ?_, ?_, ?_⟩
    · simp only [decimalDigits, if_neg hk]
    · have : (pad.take (pad.length - k)).length = pad.length - k := by
        rw [List.length_take]
        omega
      intro h
      rw [h] at this
      simp at this
      omega
    · have : (pad.drop (pad.length - k)).length = k := by
        rw [List.length_drop]
        omega
      intro h
      rw [h] at this
      simp at this
      omega
    · exact fun c hc => hpaddig c (List.mem_of_mem_take hc)
    · exact fun c hc => hpaddig c (List.mem_of_mem_drop hc)
    · rw [List.take_append_drop, hpadval, List.length_drop]
      have : pad.length - (pad.length - k) = k := by omega
      rw [this]

/-- Parsing the printed decimal digit string (with optional minus sign)
recovers the denoted rational. -/
theorem parseFloat_decimalDigits (m k : Nat) (sgn : Bool) :
    parseFloatL ((if sgn then ['-'] else []) ++ decimalDigits m k) =
      some (if sgn then -((m : ℚ) / 10 ^ k) else (m : ℚ) / 10 ^ k) := by
  obtain ⟨pre, post, ht, hpre_ne, hpost_ne, hpre_dig, hpost_dig, hval⟩ :=
    decimalDigits_struct m k
  have hdot : isDigitC '.' = false := rfl
  have hnotws : ∀ c ∈ (if sgn then ['-'] else []) ++ decimalDigits m k, isPyWs c = false := by
    intro c hc
    rcases List.mem_append.mp hc with h | h
    · cases sgn <;> simp at h
      rw [h]
      rfl
    · rw [ht] at h
      rcases List.mem_append.mp h with h | h
      · exact isDigitC_not_ws c (hpre_dig c h)
      · rcases List.mem_cons.mp h with rfl | h
        · rfl
        · exact isDigitC_not_ws c (hpost_dig c h)
  have hstrip := pyStrip_eq_self _ hnotws
  obtain ⟨c0, pre', hc0⟩ := List.exists_cons_of_ne_nil hpre_ne
  have hc0dig : isDigitC c0 = true := hpre_dig c0 (by rw [hc0]; exact List.mem_cons_self c0 pre')
  have hsplit : splitSign (decimalDigits m k) = (false, decimalDigits m k) := by
    rw [ht, hc0, List.cons_append]
    rw [splitSign_of_digit c0 (pre' ++ '.' :: post) hc0dig]
  have htw := takeWhile_append_stop isDigitC pre post '.' hpre_dig hdot
  have htwpost := takeWhile_all_eq isDigitC post hpost_dig
  have hmatch : (match '.' :: post with
      | '.' :: r => (List.takeWhile isDigitC r, List.dropWhile isDigitC r)
      | x => ([], '.' :: post)) = (List.takeWhile isDigitC post, List.dropWhile isDigitC post) :=
    rfl
  cases sgn with
  | false =>
    simp only [Bool.false_eq_true, if_false, List.nil_append] at hstrip ⊢
    rw [parseFloatL, hstrip, hsplit]
    simp only
    rw [ht, htw.1, htw.2, hmatch, htwpost.1, htwpost.2]
    simp only
    rw [if_neg (by rintro ⟨h1, h2⟩; exact hpre_ne h1)]
    simp only [Bool.false_eq_true, if_false]
    exact congrArg some hval
  | true =>
    have hsplit' : splitSign ('-' :: decimalDigits m k) = (true, decimalDigits m k) := by
      simp [splitSign]
    have hstrip' : pyStrip ('-' :: decimalDigits m k) = '-' :: decimalDigits m k :=
      pyStrip_eq_self _ (by intro c hc; exact hnotws c (by simpa using hc))
    have hpre' : (if (true : Bool) = true then ['-'] else []) ++ decimalDigits m k
        = '-' :: decimalDigits m k := by simp
    rw [hpre', parseFloatL, hstrip', hsplit']
    simp only
    rw [ht, htw.1, htw.2, hmatch, htwpost.1, htwpost.2]
    simp only
    rw [if_neg (by rintro ⟨h1, h2⟩; exact hpre_ne h1)]
    exact congrArg some (by rw [hval])

theorem den_mul_comp (q : ℚ) (a b : Nat) (hcond : q.den = 2 ^ a * 5 ^ b) :
    q.den * (2 ^ (max a b - a) * 5 ^ (max a b - b)) = 10 ^ max a b := by
  rw [hcond]
  have h2 : a + (max a b - a) = max a b := by omega
  have h5 : b + (max a b - b) = max a b := by omega
  calc 2 ^ a * 5 ^ b * (2 ^ (max a b - a) * 5 ^ (max a b - b))
      = (2 ^ a * 2 ^ (max a b - a)) * (5 ^ b * 5 ^ (max a b - b)) := by ring
    _ = 2 ^ max a b * 5 ^ max a b := by rw [← pow_add, ← pow_add, h2, h5]
    _ = 10 ^ max a b := by rw [← Nat.mul_pow]

theorem floatRepr_value (q : ℚ) (a b : Nat) (hcond : q.den = 2 ^ a * 5 ^ b) :
    ((q.num.natAbs * (2 ^ (max a b - a) * 5 ^ (max a b - b)) : ℕ) : ℚ) / 10 ^ max a b
      = (q.num.natAbs : ℚ) / q.den := by
  have hd := den_mul_comp q a b hcond
  have hcpos : 0 < 2 ^ (max a b - a) * 5 ^ (max a b - b) := by positivity
  have h10 : ((10 : ℚ) ^ max a b) = ((10 ^ max a b : ℕ) : ℚ) := by push_cast; ring
  rw [h10, ← hd]
  push_cast
  rw [mul_div_mul_right]
  positivity

theorem isDecimal_den_dvd (q : ℚ) (h : IsDecimal q) : ∃ k, (q.den : Nat) ∣ 10 ^ k := by
  obtain ⟨n, k, hq⟩ := h
  refine ⟨k, ?_⟩
  have h1 : q = Rat.divInt n (10 ^ k : ℤ) := by
    rw [Rat.divInt_eq_div, hq]
    push_cast
    ring
  have h2 := Rat.den_dvd n (10 ^ k : ℤ)
  rw [← h1] at h2
  have h3 : ((10:ℤ) ^ k) = ((10 ^ k : ℕ) : ℤ) := by push_cast; ring
  rw [h3] at h2
  exact_mod_cast h2

theorem parseFloat_floatRepr_aux (q : ℚ) (a b : Nat)
    (ha : pMult 2 q.den q.den = a) (hb : pMult 5 q.den q.den = b)
    (hcond : q.den = 2 ^ a * 5 ^ b) :
    parseFloatL (floatReprL q) = some q := by
  have hval := floatRepr_value q a b hcond
  have hcast : ((q.num.natAbs : ℤ) : ℚ) = (q.num.natAbs : ℚ) := Int.cast_natCast q.num.natAbs
  by_cases hneg : q.num < 0
  · have habs : ((q.num.natAbs : ℚ)) = -(q.num : ℚ) := by
      have h1 : (q.num.natAbs : ℤ) = -q.num := by omega
      rw [← hcast, h1]
      push_cast
      ring
    have hrepr : floatReprL q = '-' :: decimalDigits
        (q.num.natAbs * (2 ^ (max a b - a) * 5 ^ (max a b - b))) (max a b) := by
      simp only [floatReprL, ha, hb, if_pos hcond, if_pos hneg]
    have hparse : parseFloatL ('-' :: decimalDigits
        (q.num.natAbs * (2 ^ (max a b - a) * 5 ^ (max a b - b))) (max a b)) =
        some (-(((q.num.natAbs * (2 ^ (max a b - a) * 5 ^ (max a b - b)) : ℕ) : ℚ)
          / 10 ^ max a b)) :=
      parseFloat_decimalDigits _ _ true
    rw [hrepr, hparse, hval, habs, neg_div, neg_neg, Rat.num_div_den]
  · have habs : ((q.num.natAbs : ℚ)) = (q.num : ℚ) := by
      have h1 : (q.num.natAbs : ℤ) = q.num := by omega
      rw [← hcast, h1]
    have hrepr : floatReprL q = decimalDigits
        (q.num.natAbs * (2 ^ (max a b - a) * 5 ^ (max a b - b))) (max a b) := by
      simp only [floatReprL, ha, hb, if_pos hcond, if_neg hneg]
    have hparse : parseFloatL (decimalDigits
        (q.num.natAbs * (2 ^ (max a b - a) * 5 ^ (max a b - b))) (max a b)) =
        some (((q.num.natAbs * (2 ^ (max a b - a) * 5 ^ (max a b - b)) : ℕ) : ℚ)
          / 10 ^ max a b) :=
      parseFloat_decimalDigits _ _ false
    rw [hrepr, hparse, hval, habs, Rat.num_div_den]

/-- Printing and re-parsing a decimal rational is the identity: the model
of the price round trip through `str(float)` and `float(str)`. -/
theorem parseFloatL_floatReprL (q : ℚ) (h : IsDecimal q) :
    parseFloatL (floatReprL q) = some q := by
  obtain ⟨k, hden⟩ := isDecimal_den_dvd q h
  exact parseFloat_floatRepr_aux q (pMult 2 q.den q.den) (pMult 5 q.den q.den) rfl rfl
    (den_decomp q.den q.den_nz k hden)

theorem isDecimal_natCast_div_pow (N f : Nat) : IsDecimal ((N : ℚ) / 10 ^ f) :=
  ⟨(N : ℤ), f, by push_cast; ring⟩

theorem IsDecimal.neg (q : ℚ) (h : IsDecimal q) : IsDecimal (-q) := by
  obtain ⟨n, k, rfl⟩ := h
  exact ⟨-n, k, by push_cast; ring⟩

theorem IsDecimal.mul_zpow (q : ℚ) (e : ℤ) (h : IsDecimal q) :
    IsDecimal (q * (10 : ℚ) ^ e) := by
  obtain ⟨n, k, rfl⟩ := h
  rcases e with m | m
  · refine ⟨n * 10 ^ m, k, ?_⟩
    rw [show (Int.ofNat m) = (m : ℤ) from rfl, zpow_natCast]
    push_cast
    ring
  · refine ⟨n, k + m + 1, ?_⟩
    rw [zpow_negSucc]
    have h10 : ((10 : ℚ) ^ (m + 1)) ≠ 0 := by positivity
    have hk : ((10 : ℚ) ^ k) ≠ 0 := by positivity
    field_simp
    left
    rw [← pow_add, Nat.add_assoc]

/-- Every value `float(s)` can produce denotes a decimal number. -/
theorem parseFloatL_isDecimal (cs : List Char) (q : ℚ)
    (h : parseFloatL cs = some q) : IsDecimal q := by
  simp only [parseFloatL] at h
  split at h
  · exact absurd h (by simp)
  · split at h
    · rw [Option.some_inj] at h
      subst h
      split
      · exact IsDecimal.neg _ (isDecimal_natCast_div_pow _ _)
      · exact isDecimal_natCast_div_pow _ _
    · split at h
      · split at h
        · rw [Option.some_inj] at h
          subst h
          split
          · exact IsDecimal.neg _ (IsDecimal.mul_zpow _ _ (isDecimal_natCast_div_pow _ _))
          · exact IsDecimal.mul_zpow _ _ (isDecimal_natCast_div_pow _ _)
        · exact absurd h (by simp)
      · exact absurd h (by simp)

/-! ### Universal-newline translation lemmas -/

theorem unl_cons_ne (c : Char) (rest : List Char) (hc : c ≠ '\r') :
    unl (c :: rest) = c :: unl rest := by
  cases rest with
  | nil => simp [unl, hc]
  | cons d rest => simp [unl, hc]

theorem unl_eq_self (xs : List Char) (h : ∀ c ∈ xs, c ≠ '\r') : unl xs = xs := by
  induction xs with
  | nil => rfl
  | cons c rest ih =>
    rw [unl_cons_ne c rest (h c (List.mem_cons_self c rest)),
      ih fun a ha => h a (List.mem_cons_of_mem c ha)]

theorem unl_cr_cons (xs : List Char) (hx : xs.head? ≠ some '\n') :
    unl ('\r' :: xs) = '\n' :: unl xs := by
  cases xs with
  | nil => rfl
  | cons y ys =>
    have hy : y ≠ '\n' := by
      intro e
      subst e
      exact hx rfl
    simp [unl, hy]

theorem unl_crlf_cons (xs : List Char) : unl ('\r' :: '\n' :: xs) = '\n' :: unl xs := by
  simp [unl]

theorem not_cr_mem_unl (xs : List Char) : '\r' ∉ unl xs := by
  induction xs using unl.induct with
  | case1 => simp [unl]
  | case2 => simp [unl]
  | case3 c hc =>
    simp only [unl, if_neg hc, List.mem_singleton]
    exact fun h => hc h.symm
  | case4 rest ih =>
    rw [unl_crlf_cons]
    simp only [List.mem_cons]
    rintro (h | h)
    · exact absurd h (by decide)
    · exact ih h
  | case5 d rest hd ih =>
    rw [unl_cr_cons _ (by simpa using hd)]
    simp only [List.mem_cons]
    rintro (h | h)
    · exact absurd h (by decide)
    · exact ih h
  | case6 c d rest hc ih =>
    rw [unl_cons_ne _ _ hc]
    simp only [List.mem_cons]
    rintro (h | h)
    · exact hc h.symm
    · exact ih h

theorem unl_append (xs : List Char) : ∀ ys : List Char,
    (xs.getLast? = some '\r' → ys.head? ≠ some '\n') →
    unl (xs ++ ys) = unl xs ++ unl ys := by
  induction xs using unl.induct with
  | case1 => intro ys h; simp [unl]
  | case2 =>
    intro ys h
    have hy : ys.head? ≠ some '\n' := h rfl
    rw [List.singleton_append, unl_cr_cons ys hy]
    rfl
  | case3 c hc =>
    intro ys h
    rw [List.singleton_append, unl_cons_ne c ys hc]
    simp [unl, hc]
  | case4 rest ih =>
    intro ys h
    have h' : rest.getLast? = some '\r' → ys.head? ≠ some '\n' := by
      intro hl
      apply h
      cases rest with
      | nil => simp at hl
      | cons a l =>
        rw [List.getLast?_cons_cons, List.getLast?_cons_cons]
        exact hl
    rw [List.cons_append, List.cons_append, unl_crlf_cons, unl_crlf_cons, ih ys h',
      List.cons_append]
  | case5 d rest hd ih =>
    intro ys h
    have h' : (d :: rest).getLast? = some '\r' → ys.head? ≠ some '\n' := by
      intro hl
      apply h
      rwa [List.getLast?_cons_cons]
    have hhead : ((d :: rest) ++ ys).head? ≠ some '\n' := by
      simp only [List.cons_append, List.head?_cons]
      simpa using hd
    rw [List.cons_append, List.cons_append,
      show ('\r' :: (d :: (rest ++ ys)) : List Char) = '\r' :: ((d :: rest) ++ ys) from rfl,
      unl_cr_cons _ hhead, unl_cr_cons _ (by simpa using hd), ih ys h', List.cons_append]
  | case6 c d rest hc ih =>
    intro ys h
    have h' : (d :: rest).getLast? = some '\r' → ys.head? ≠ some '\n' := by
      intro hl
      apply h
      rwa [List.getLast?_cons_cons]
    rw [List.cons_append, List.cons_append,
      show (c :: (d :: (rest ++ ys)) : List Char) = c :: ((d :: rest) ++ ys) from rfl,
      unl_cons_ne _ _ hc, unl_cons_ne _ _ hc, ih ys h', List.cons_append]

theorem unl_no_cr_append (f ys : List Char) (hf : ∀ c ∈ f, c ≠ '\r') :
    unl (f ++ ys) = f ++ unl ys := by
  induction f with
  | nil => simp
  | cons c f' ih =>
    rw [List.cons_append, unl_cons_ne c _ (hf c (List.mem_cons_self c f')),
      ih fun a ha => hf a (List.mem_cons_of_mem c ha), List.cons_append]

theorem escapeQuotes_unl_comm (f : List Char) :
    escapeQuotes (unl f) = unl (escapeQuotes f) := by
  induction f using unl.induct with
  | case1 => rfl
  | case2 => rfl
  | case3 c hc =>
    simp only [unl, if_neg hc, escapeQuotes]
    by_cases hq : c = '"'
    · subst hq
      rfl
    · simp [escapeQuotes, hq, unl, hc]
  | case4 rest ih =>
    rw [unl_crlf_cons]
    show escapeQuotes ('\n' :: unl rest) = unl (escapeQuotes ('\r' :: '\n' :: rest))
    rw [show escapeQuotes ('\r' :: '\n' :: rest) = '\r' :: '\n' :: escapeQuotes rest from by
      simp [escapeQuotes], unl_crlf_cons]
    rw [show escapeQuotes ('\n' :: unl rest) = '\n' :: escapeQuotes (unl rest) from by
      simp [escapeQuotes], ih]
  | case5 d rest hd ih =>
    rw [unl_cr_cons _ (by simpa using hd)]
    rw [show escapeQuotes ('\n' :: unl (d :: rest)) = '\n' :: escapeQuotes (unl (d :: rest))
      from by simp [escapeQuotes]]
    rw [show escapeQuotes ('\r' :: d :: rest) = '\r' :: escapeQuotes (d :: rest) from by
      simp [escapeQuotes]]
    have hhd : (escapeQuotes (d :: rest)).head? ≠ some '\n' := by
      simp only [escapeQuotes]
      by_cases hq : d = '"'
      · simp [hq]
      · simp [hq]
        simpa using hd
    rw [unl_cr_cons _ hhd, ih]
  | case6 c d rest hc ih =>
    rw [unl_cons_ne c _ hc]
    by_cases hq : c = '"'
    · subst hq
      have he : ∀ l : List Char, escapeQuotes ('"' :: l) = '"' :: '"' :: escapeQuotes l := by
        intro l
        simp [escapeQuotes]
      rw [he, he, unl_cons_ne '"' _ (by decide), unl_cons_ne '"' _ (by decide), ih]
    · have he : ∀ l : List Char, escapeQuotes (c :: l) = c :: escapeQuotes l := by
        intro l
        simp [escapeQuotes, hq]
      rw [he, he, unl_cons_ne c _ hc, ih]

theorem needsQuote_unl (f : List Char) : needsQuote (unl f) = needsQuote f := by
  induction f using unl.induct with
  | case1 => rfl
  | case2 => rfl
  | case3 c hc => simp [unl, if_neg hc]
  | case4 rest ih =>
    rw [unl_crlf_cons]
    simp [needsQuote]
  | case5 d rest hd ih =>
    rw [unl_cr_cons _ (by simpa using hd)]
    simp [needsQuote]
  | case6 c d rest hc ih =>
    rw [unl_cons_ne _ _ hc]
    simp only [needsQuote, List.any_cons] at ih ⊢
    rw [ih]

/-- Translation passes through an encoded field, translating its content. -/
theorem unl_encodeField (f ys : List Char) :
    unl (encodeField f ++ ys) = encodeField (unl f) ++ unl ys := by
  by_cases hq : needsQuote f = true
  · have hq' : needsQuote (unl f) = true := by rw [needsQuote_unl, hq]
    have hshape : encodeField f ++ ys = '"' :: (escapeQuotes f ++ ('"' :: ys)) := by
      rw [encodeField, if_pos hq]
      simp [List.append_assoc]
    rw [hshape, unl_cons_ne '"' _ (by decide),
      unl_append (escapeQuotes f) ('"' :: ys) (by simp),
      unl_cons_ne '"' _ (by decide), ← escapeQuotes_unl_comm,
      encodeField, if_pos hq']
    simp [List.append_assoc]
  · have hq2 : needsQuote f = false := by simpa using hq
    have hnospec : ∀ c ∈ f, ¬(c = ',' ∨ c = '"' ∨ c = '\r' ∨ c = '\n') := by
      intro c hc
      have := List.any_eq_false.mp hq2 c hc
      simpa using this
    have hnocr : ∀ c ∈ f, c ≠ '\r' := fun c hc e => hnospec c hc (Or.inr (Or.inr (Or.inl e)))
    have hfid : unl f = f := unl_eq_self f hnocr
    have hq3 : needsQuote (unl f) = false := by rw [needsQuote_unl, hq2]
    rw [encodeField, if_neg (by simp [hq2]), encodeField, if_neg (by simp [hq3]), hfid]
    exact unl_no_cr_append f ys hnocr

/-- Translation turns a written record (terminated `\r\n`) into the same
record with `\n` terminator and translated cells. -/
theorem unl_encodeCells (cells : List (List Char)) (ys : List Char) :
    unl (encodeCells cells ++ ys) = encodeCellsLF (cells.map unl) ++ unl ys := by
  induction cells with
  | nil => simp [encodeCells, encodeCellsLF, unl_crlf_cons]
  | cons f fs ih =>
    cases fs with
    | nil =>
      show unl ((encodeField f ++ ['\r', '\n']) ++ ys) = _
      rw [List.append_assoc, unl_encodeField]
      simp only [List.cons_append, List.nil_append, unl_crlf_cons]
      simp [encodeCellsLF, List.append_assoc]
    | cons g gs =>
      show unl ((encodeField f ++ ',' :: encodeCells (g :: gs)) ++ ys) = _
      rw [List.append_assoc, unl_encodeField, List.cons_append,
        unl_cons_ne ',' _ (by decide), ih]
      show encodeField (unl f) ++ ',' :: (encodeCellsLF ((g :: gs).map unl) ++ unl ys) =
        encodeCellsLF (unl f :: (g :: gs).map unl) ++ unl ys
      rw [show encodeCellsLF (unl f :: (g :: gs).map unl) =
          encodeField (unl f) ++ ',' :: encodeCellsLF ((g :: gs).map unl) from rfl]
      simp [List.append_assoc]

/-- Translation of a whole written stream of records. -/
theorem unl_stream (rows : List (List (List Char))) :
    unl (rows.map encodeCells).flatten =
      ((rows.map fun r => r.map unl).map encodeCellsLF).flatten := by
  induction rows with
  | nil => rfl
  | cons r rows ih =>
    simp only [List.map_cons, List.flatten_cons]
    rw [unl_encodeCells, ih]

/-! ### The csv reader inverts the writer on translated streams -/

/-- Delimiter-or-end shape for the text following a field. -/
def DelimHead (r : List Char) : Prop :=
  r.head? = none ∨ r.head? = some ',' ∨ r.head? = some '\n'

theorem takeUnquoted_clean (f : List Char) : ∀ r : List Char,
    (∀ c ∈ f, ¬(c = ',' ∨ c = '\n')) → DelimHead r →
    takeUnquoted (f ++ r) = (f, r) := by
  induction f with
  | nil =>
    intro r _ hr
    rcases hr with h | h | h
    · rw [List.head?_eq_none_iff.mp h]
      rfl
    · obtain ⟨ys, rfl⟩ := List.head?_eq_some_iff.mp h
      simp [takeUnquoted]
    · obtain ⟨ys, rfl⟩ := List.head?_eq_some_iff.mp h
      simp [takeUnquoted]
  | cons c f' ih =>
    intro r hf hr
    have hc := hf c (List.mem_cons_self c f')
    rw [List.cons_append]
    simp only [takeUnquoted, if_neg hc,
      ih r (fun a ha => hf a (List.mem_cons_of_mem c ha)) hr]

theorem takeQuoted_cons_ne (c : Char) (cs : List Char) (hq : c ≠ '"') :
    takeQuoted (c :: cs) = ((c :: (takeQuoted cs).1), (takeQuoted cs).2) := by
  rw [takeQuoted.eq_def]
  simp only [if_neg hq]

theorem takeQuoted_esc (f : List Char) : ∀ r : List Char, DelimHead r →
    takeQuoted (escapeQuotes f ++ '"' :: r) = (f, r) := by
  induction f with
  | nil =>
    intro r hr
    show takeQuoted ('"' :: r) = ([], r)
    rcases hr with h | h | h
    · rw [List.head?_eq_none_iff.mp h]
      rfl
    · obtain ⟨ys, rfl⟩ := List.head?_eq_some_iff.mp h
      rfl
    · obtain ⟨ys, rfl⟩ := List.head?_eq_some_iff.mp h
      rfl
  | cons c f' ih =>
    intro r hr
    by_cases hq : c = '"'
    · subst hq
      have he : escapeQuotes ('"' :: f') = '"' :: '"' :: escapeQuotes f' := by
        simp [escapeQuotes]
      rw [he, List.cons_append, List.cons_append]
      simp [takeQuoted, ih r hr]
    · have he : escapeQuotes (c :: f') = c :: escapeQuotes f' := by
        simp [escapeQuotes, hq]
      rw [he, List.cons_append, takeQuoted_cons_ne c _ hq, ih r hr]

theorem needsQuote_false_no_special (f : List Char) (h : needsQuote f = false) :
    ∀ c ∈ f, ¬(c = ',' ∨ c = '"' ∨ c = '\r' ∨ c = '\n') := by
  intro c hc
  have := List.any_eq_false.mp h c hc
  simpa using this

theorem takeField_enc (f : List Char) (r : List Char) (hr : DelimHead r) :
    takeField (encodeField f ++ r) = (f, r) := by
  by_cases hq : needsQuote f = true
  · have hshape : encodeField f ++ r = '"' :: (escapeQuotes f ++ ('"' :: r)) := by
      rw [encodeField, if_pos hq]
      simp [List.append_assoc]
    rw [hshape]
    rw [show takeField ('"' :: (escapeQuotes f ++ ('"' :: r))) =
        takeQuoted (escapeQuotes f ++ ('"' :: r)) from by simp [takeField]]
    exact takeQuoted_esc f r hr
  · have hq2 : needsQuote f = false := by simpa using hq
    have hnospec := needsQuote_false_no_special f hq2
    rw [encodeField, if_neg (by simp [hq2])]
    cases f with
    | nil =>
      rcases hr with h | h | h
      · rw [List.head?_eq_none_iff.mp h]
        rfl
      · obtain ⟨ys, rfl⟩ := List.head?_eq_some_iff.mp h
        simp [takeField, takeUnquoted]
      · obtain ⟨ys, rfl⟩ := List.head?_eq_some_iff.mp h
        simp [takeField, takeUnquoted]
    | cons c f' =>
      have hcq : c ≠ '"' := fun e =>
        hnospec c (List.mem_cons_self c f') (Or.inr (Or.inl e))
      rw [List.cons_append]
      rw [show takeField (c :: (f' ++ r)) = takeUnquoted (c :: (f' ++ r)) from by
        simp [takeField, hcq]]
      rw [← List.cons_append]
      exact takeUnquoted_clean (c :: f') r
        (fun a ha => fun hor => hnospec a ha (by tauto)) hr

theorem takeRecordF_enc (cells : List (List Char)) : ∀ (fuel : Nat) (r : List Char),
    cells ≠ [] → cells.length ≤ fuel →
    takeRecordF fuel (encodeCellsLF cells ++ r) = (cells, r) := by
  induction cells with
  | nil => intro fuel r h; exact absurd rfl h
  | cons f fs ih =>
    intro fuel r _ hfuel
    obtain ⟨fuel', rfl⟩ : ∃ fuel', fuel = fuel' + 1 := by
      cases fuel with
      | zero => simp at hfuel
      | succ n => exact ⟨n, rfl⟩
    cases fs with
    | nil =>
      show takeRecordF (fuel' + 1) ((encodeField f ++ ['\n']) ++ r) = ([f], r)
      rw [List.append_assoc, List.singleton_append]
      simp only [takeRecordF, takeField_enc f ('\n' :: r) (by simp [DelimHead])]
    | cons g gs =>
      show takeRecordF (fuel' + 1) ((encodeField f ++ ',' :: encodeCellsLF (g :: gs)) ++ r)
          = (f :: g :: gs, r)
      rw [List.append_assoc, List.cons_append]
      simp only [takeRecordF, takeField_enc f (',' :: (encodeCellsLF (g :: gs) ++ r))
        (by simp [DelimHead])]
      rw [ih fuel' r (by simp) (by simpa using Nat.le_of_succ_le_succ hfuel)]

theorem parseRecordsF_nil (fuel : Nat) : parseRecordsF fuel [] = [] := by
  cases fuel <;> rfl

theorem encodeCellsLF_ne_nil (cells : List (List Char)) : encodeCellsLF cells ≠ [] := by
  cases cells with
  | nil => simp [encodeCellsLF]
  | cons f fs =>
    cases fs with
    | nil => simp [encodeCellsLF]
    | cons g gs => simp [encodeCellsLF]

theorem encodeCellsLF_length_ge (cells : List (List Char)) :
    cells.length ≤ (encodeCellsLF cells).length := by
  induction cells with
  | nil => simp [encodeCellsLF]
  | cons f fs ih =>
    cases fs with
    | nil => simp [encodeCellsLF]
    | cons g gs =>
      show (f :: g :: gs).length ≤ (encodeField f ++ ',' :: encodeCellsLF (g :: gs)).length
      simp only [List.length_cons, List.length_append] at ih ⊢
      omega

theorem encodeField_head_struct (f : List Char) (hf : f ≠ []) :
    ∃ c cs, encodeField f = c :: cs ∧ c ≠ '\n' := by
  by_cases hq : needsQuote f = true
  · rw [encodeField, if_pos hq]
    exact ⟨'"', escapeQuotes f ++ ['"'], rfl, by decide⟩
  · have hq2 : needsQuote f = false := by simpa using hq
    rw [encodeField, if_neg (by simp [hq2])]
    obtain ⟨c, cs, rfl⟩ := List.exists_cons_of_ne_nil hf
    refine ⟨c, cs, rfl, fun e => ?_⟩
    exact needsQuote_false_no_special _ hq2 c (List.mem_cons_self c cs)
      (Or.inr (Or.inr (Or.inr e)))

theorem encodeCellsLF_cons_head (f : List Char) (fs : List (List Char)) (hf : f ≠ []) :
    ∃ c cs, encodeCellsLF (f :: fs) = c :: cs ∧ c ≠ '\n' := by
  obtain ⟨c, cs, henc, hc⟩ := encodeField_head_struct f hf
  cases fs with
  | nil => exact ⟨c, cs ++ ['\n'], by simp [encodeCellsLF, henc], hc⟩
  | cons g gs =>
    exact ⟨c, cs ++ ',' :: encodeCellsLF (g :: gs), by simp [encodeCellsLF, henc], hc⟩

/-- The record splitter recovers every written record from a translated
stream, provided each record is nonempty with a nonempty first cell (true
of the header and of every written product row). -/
theorem parseRecordsF_encodes (rows : List (List (List Char))) : ∀ fuel : Nat,
    rows.length ≤ fuel →
    (∀ row ∈ rows, ∃ f fs, row = f :: fs ∧ f ≠ ([] : List Char)) →
    parseRecordsF fuel (rows.map encodeCellsLF).flatten = rows := by
  induction rows with
  | nil =>
    intro fuel _ _
    simp [parseRecordsF_nil]
  | cons row rows ih =>
    intro fuel hfuel hrows
    obtain ⟨fuel', rfl⟩ : ∃ fuel', fuel = fuel' + 1 := by
      cases fuel with
      | zero => simp at hfuel
      | succ n => exact ⟨n, rfl⟩
    obtain ⟨f, fs, rfl, hf⟩ := hrows row (List.mem_cons_self row rows)
    obtain ⟨c, cs, henc, hc⟩ := encodeCellsLF_cons_head f fs hf
    simp only [List.map_cons, List.flatten_cons]
    rw [henc, List.cons_append]
    show parseRecordsF (fuel' + 1) (c :: (cs ++ (rows.map encodeCellsLF).flatten)) = _
    rw [parseRecordsF.eq_def]
    simp only [if_neg hc]
    have hlen : (f :: fs).length ≤ (c :: (cs ++ (rows.map encodeCellsLF).flatten)).length + 1 := by
      have h1 := encodeCellsLF_length_ge (f :: fs)
      have h2 : (encodeCellsLF (f :: fs)).length = cs.length + 1 := by
        rw [henc]
        simp
      have h3 : (f :: fs).length = fs.length + 1 := by simp
      simp only [List.length_cons, List.length_append]
      omega
    have hrec : takeRecordF ((c :: (cs ++ (rows.map encodeCellsLF).flatten)).length + 1)
        (c :: (cs ++ (rows.map encodeCellsLF).flatten)) =
        (f :: fs, (rows.map encodeCellsLF).flatten) := by
      rw [show (c :: (cs ++ (rows.map encodeCellsLF).flatten) : List Char) =
          encodeCellsLF (f :: fs) ++ (rows.map encodeCellsLF).flatten from by
        rw [henc, List.cons_append]]
      exact takeRecordF_enc (f :: fs) _ _ (by simp)
        (by rw [henc]; simpa using hlen)
    rw [hrec]
    simp only
    rw [ih fuel' (by simpa using Nat.le_of_succ_le_succ hfuel)
      fun r hr => hrows r (List.mem_cons_of_mem _ hr)]

/-! ### Save-then-load round trip -/

theorem isDigitC_ne_cr (c : Char) (h : isDigitC c = true) : c ≠ '\r' := by
  simp only [isDigitC, decide_eq_true_eq] at h
  rintro rfl
  revert h
  decide

theorem intReprL_no_cr (i : Int) : ∀ c ∈ intReprL i, c ≠ '\r' := by
  intro c hc
  rw [intReprL] at hc
  split at hc
  · rcases List.mem_cons.mp hc with rfl | hc
    · decide
    · exact isDigitC_ne_cr c (natReprL_all_digits _ c hc)
  · exact isDigitC_ne_cr c (natReprL_all_digits _ c hc)

theorem decimalDigits_no_cr (m k : Nat) : ∀ c ∈ decimalDigits m k, c ≠ '\r' := by
  obtain ⟨pre, post, ht, _, _, hpre, hpost, _⟩ := decimalDigits_struct m k
  intro c hc
  rw [ht] at hc
  rcases List.mem_append.mp hc with h | h
  · exact isDigitC_ne_cr c (hpre c h)
  · rcases List.mem_cons.mp h with rfl | h
    · decide
    · exact isDigitC_ne_cr c (hpost c h)

theorem floatReprL_no_cr (q : ℚ) : ∀ c ∈ floatReprL q, c ≠ '\r' := by
  intro c hc
  rw [floatReprL] at hc
  split at hc
  · split at hc
    · rcases List.mem_cons.mp hc with rfl | hc
      · decide
      · exact decimalDigits_no_cr _ _ c hc
    · exact decimalDigits_no_cr _ _ c hc
  · exact isDigitC_ne_cr c (natReprL_all_digits _ c hc)

theorem intReprL_ne_nil (i : Int) : intReprL i ≠ [] := by
  rw [intReprL]
  split
  · simp
  · exact natReprL_ne_nil _

/-- A written product row after newline translation of its cells. -/
theorem rowOf_unl (p : Product) :
    (rowOf p).map unl = [intReprL p.id, unl p.name.data, unl p.desc.data,
      floatReprL p.price, intReprL p.quantity] := by
  simp only [rowOf, List.map_cons, List.map_nil]
  rw [unl_eq_self _ (intReprL_no_cr p.id), unl_eq_self _ (floatReprL_no_cr p.price),
    unl_eq_self _ (intReprL_no_cr p.quantity)]

theorem length_le_flatten_encodeCellsLF (rows : List (List (List Char))) :
    rows.length ≤ ((rows.map encodeCellsLF).flatten).length := by
  induction rows with
  | nil => simp
  | cons r rows ih =>
    simp only [List.map_cons, List.flatten_cons, List.length_cons, List.length_append]
    have h1 : 1 ≤ (encodeCellsLF r).length := by
      cases h : encodeCellsLF r with
      | nil => exact absurd h (encodeCellsLF_ne_nil r)
      | cons a l => simp
    omega

theorem save_data_as_flatten (ps : List Product) :
    save_data ps = ((hdrCells :: ps.map rowOf).map encodeCells).flatten := by
  simp [save_data, List.map_map]
  rfl

/-- Parsing the translated saved stream yields the header record followed
by one record per product, with name and desc newline-translated. -/
theorem parseRecords_save (ps : List Product) :
    parseRecords (unl (save_data ps)) =
      hdrCells :: ps.map fun p => [intReprL p.id, unl p.name.data, unl p.desc.data,
        floatReprL p.price, intReprL p.quantity] := by
  rw [save_data_as_flatten, parseRecords, unl_stream]
  have hmap : ((hdrCells :: ps.map rowOf).map fun r => r.map unl) =
      hdrCells :: ps.map fun p => [intReprL p.id, unl p.name.data, unl p.desc.data,
        floatReprL p.price, intReprL p.quantity] := by
    simp only [List.map_cons, List.map_map]
    rw [show hdrCells.map unl = hdrCells from by decide]
    rw [List.map_congr_left fun p _ => by
      show (rowOf p).map unl = _
      exact rowOf_unl p]
  rw [hmap]
  apply parseRecordsF_encodes
  · exact length_le_flatten_encodeCellsLF _
  · intro row hrow
    rcases List.mem_cons.mp hrow with rfl | hrow
    · exact ⟨['i', 'd'], _, rfl, by decide⟩
    · obtain ⟨p, _, rfl⟩ := List.mem_map.mp hrow
      exact ⟨intReprL p.id, _, rfl, intReprL_ne_nil p.id⟩

theorem rowToProduct_clean (p : Product) (hdec : IsDecimal p.price) :
    rowToProduct hdrCells [intReprL p.id, unl p.name.data, unl p.desc.data,
        floatReprL p.price, intReprL p.quantity] =
      .ok ⟨p.id, ⟨unl p.name.data⟩, ⟨unl p.desc.data⟩, p.price, p.quantity⟩ := by
  have hg0 : getCell hdrCells [intReprL p.id, unl p.name.data, unl p.desc.data,
      floatReprL p.price, intReprL p.quantity] ['i', 'd'] = .ok (intReprL p.id) := rfl
  have hg1 : getCell hdrCells [intReprL p.id, unl p.name.data, unl p.desc.data,
      floatReprL p.price, intReprL p.quantity] "name".data = .ok (unl p.name.data) := rfl
  have hg2 : getCell hdrCells [intReprL p.id, unl p.name.data, unl p.desc.data,
      floatReprL p.price, intReprL p.quantity] "desc".data = .ok (unl p.desc.data) := rfl
  have hg3 : getCell hdrCells [intReprL p.id, unl p.name.data, unl p.desc.data,
      floatReprL p.price, intReprL p.quantity] "price".data = .ok (floatReprL p.price) := rfl
  have hg4 : getCell hdrCells [intReprL p.id, unl p.name.data, unl p.desc.data,
      floatReprL p.price, intReprL p.quantity] "quantity".data = .ok (intReprL p.quantity) := rfl
  rw [rowToProduct, hg0, hg1, hg2, hg3, hg4]
  simp only [parseIntL_intReprL, parseFloatL_floatReprL p.price hdec, bind, Except.bind,
    Except.map, Functor.map, pure, Except.pure, pFail]

/-- The newline-translated copy of a product that the round trip produces. -/
def cleanProduct (p : Product) : Product :=
  { p with name := ⟨unl p.name.data⟩, desc := ⟨unl p.desc.data⟩ }

theorem processRows_clean (ps : List Product) : ∀ acc : List Product,
    (∀ p ∈ ps, IsDecimal p.price) →
    processRows hdrCells (ps.map fun p => [intReprL p.id, unl p.name.data, unl p.desc.data,
        floatReprL p.price, intReprL p.quantity]) acc =
      (acc ++ ps.map cleanProduct, none) := by
  induction ps with
  | nil =>
    intro acc _
    simp [processRows]
  | cons p ps ih =>
    intro acc hdec
    simp only [List.map_cons, processRows, if_neg (by simp : ¬([intReprL p.id, unl p.name.data,
      unl p.desc.data, floatReprL p.price, intReprL p.quantity] = ([] : List (List Char))))]
    rw [rowToProduct_clean p (hdec p (List.mem_cons_self p ps))]
    calc _ = processRows hdrCells (ps.map fun q => [intReprL q.id, unl q.name.data,
            unl q.desc.data, floatReprL q.price, intReprL q.quantity])
            (acc ++ [cleanProduct p]) := rfl
      _ = (acc ++ [cleanProduct p] ++ ps.map cleanProduct, none) :=
            ih (acc ++ [cleanProduct p]) fun a ha => hdec a (List.mem_cons_of_mem p ha)
      _ = (acc ++ cleanProduct p :: ps.map cleanProduct, none) := by simp

/-- The save-then-load round trip: loading the saved file into a fresh
inventory reproduces every product exactly except that a carriage return
(or CRLF pair) inside a name or description comes back as a line feed,
because the reading side omits `newline=''`. -/
theorem load_data_save_data (ps : List Product) (hdec : ∀ p ∈ ps, IsDecimal p.price) :
    load_data (some (save_data ps)) [] = (ps.map cleanProduct, none) := by
  rw [load_data, parseRecords_save]
  simp only
  rw [processRows_clean ps [] hdec]
  simp

/-! ### Inventory operation lemmas -/

/-- The non-id fields of a product, used to state frame conditions. -/
def fieldsOf (p : Product) : String × String × ℚ × Int :=
  (p.name, p.desc, p.price, p.quantity)

theorem reindexFrom_fields (n : Int) (l : List Product) :
    (reindexFrom n l).map fieldsOf = l.map fieldsOf := by
  induction l generalizing n with
  | nil => rfl
  | cons p l ih => simp [reindexFrom, fieldsOf, ih]

theorem idsOf_reindexFrom (n : Int) (l : List Product) :
    idsOf (reindexFrom n l) = (List.range l.length).map fun i : Nat => n + (i : Int) := by
  induction l generalizing n with
  | nil => rfl
  | cons p l ih =>
    show n :: idsOf (reindexFrom (n + 1) l) = _
    rw [ih (n + 1), List.length_cons, List.range_succ_eq_map]
    simp only [List.map_cons, List.map_map, Nat.cast_zero, add_zero]
    congr 1
    apply List.map_congr_left
    intro i _
    show (n + 1) + (i : Int) = n + ((Nat.succ i : ℕ) : Int)
    push_cast
    ring

theorem reindexFrom_length (n : Int) (l : List Product) :
    (reindexFrom n l).length = l.length := by
  induction l generalizing n with
  | nil => rfl
  | cons p l ih => simp [reindexFrom, ih]

theorem rangeIds_eq_add_form (n : Nat) :
    rangeIds n = (List.range n).map fun i : Nat => (1 : Int) + (i : Int) := by
  apply List.map_congr_left
  intro i _
  ring

theorem idsOf_reindexFrom_one (l : List Product) :
    idsOf (reindexFrom 1 l) = rangeIds l.length := by
  rw [idsOf_reindexFrom, rangeIds_eq_add_form]

theorem rangeIds_succ (n : Nat) : rangeIds (n + 1) = rangeIds n ++ [(n : Int) + 1] := by
  simp [rangeIds, List.range_succ]

theorem rangeIds_nodup (n : Nat) : (rangeIds n).Nodup := by
  apply List.Nodup.map
  · intro a b h
    simpa using h
  · exact List.nodup_range n

theorem mem_rangeIds (n : Nat) (a : Int) : a ∈ rangeIds n ↔ 1 ≤ a ∧ a ≤ n := by
  simp only [rangeIds, List.mem_map, List.mem_range]
  constructor
  · rintro ⟨i, hi, rfl⟩
    omega
  · rintro ⟨h1, h2⟩
    exact ⟨(a - 1).toNat, by omega, by omega⟩

theorem foldl_max_spec (l : List Product) : ∀ a : Int,
    (a ≤ l.foldl (fun m q => max m q.id) a) ∧
    (∀ p ∈ l, p.id ≤ l.foldl (fun m q => max m q.id) a) ∧
    (l.foldl (fun m q => max m q.id) a = a ∨
      ∃ p ∈ l, l.foldl (fun m q => max m q.id) a = p.id) := by
  induction l with
  | nil => exact fun a => ⟨le_rfl, by simp, Or.inl rfl⟩
  | cons q l ih =>
    intro a
    obtain ⟨h1, h2, h3⟩ := ih (max a q.id)
    refine ⟨le_trans (le_max_left a q.id) h1, ?_, ?_⟩
    · intro p hp
      rcases List.mem_cons.mp hp with rfl | hp
      · exact le_trans (le_max_right a p.id) h1
      · exact h2 p hp
    · rcases h3 with h | ⟨p, hp, h⟩
      · rcases max_choice a q.id with he | he
        · exact Or.inl (by rw [List.foldl_cons, h, he])
        · exact Or.inr ⟨q, List.mem_cons_self q l, by rw [List.foldl_cons, h, he]⟩
      · exact Or.inr ⟨p, List.mem_cons_of_mem q hp, by rw [List.foldl_cons, h]⟩

theorem get_next_id_spec (ps : List Product) (hne : ps ≠ []) :
    (∀ p ∈ ps, p.id + 1 ≤ get_next_id ps) ∧ ∃ p ∈ ps, get_next_id ps = p.id + 1 := by
  obtain ⟨q, l, rfl⟩ := List.exists_cons_of_ne_nil hne
  obtain ⟨h1, h2, h3⟩ := foldl_max_spec l q.id
  constructor
  · intro p hp
    rcases List.mem_cons.mp hp with rfl | hp
    · show p.id + 1 ≤ l.foldl (fun m q => max m q.id) p.id + 1
      omega
    · have := h2 p hp
      show p.id + 1 ≤ l.foldl (fun m q' => max m q'.id) q.id + 1
      omega
  · rcases h3 with h | ⟨p, hp, h⟩
    · exact ⟨q, List.mem_cons_self q l, by show _ = _; rw [show get_next_id (q :: l) =
        l.foldl (fun m q' => max m q'.id) q.id + 1 from rfl, h]⟩
    · exact ⟨p, List.mem_cons_of_mem q hp, by rw [show get_next_id (q :: l) =
        l.foldl (fun m q' => max m q'.id) q.id + 1 from rfl, h]⟩

theorem setFirstById_ids (pid : Int) (f : Product → Product)
    (hf : ∀ p, (f p).id = p.id) (l : List Product) :
    idsOf (setFirstById pid f l) = idsOf l := by
  induction l with
  | nil => rfl
  | cons p l ih =>
    by_cases h : p.id = pid
    · simp [setFirstById, h, idsOf, hf]
    · simp only [setFirstById, if_neg h]
      simp [idsOf] at ih ⊢
      exact ih

theorem setFirstById_mem (pid : Int) (f : Product → Product) (l : List Product) :
    ∀ a ∈ setFirstById pid f l, a ∈ l ∨ ∃ p ∈ l, a = f p := by
  induction l with
  | nil => simp [setFirstById]
  | cons p l ih =>
    intro a ha
    by_cases h : p.id = pid
    · rw [setFirstById, if_pos h] at ha
      rcases List.mem_cons.mp ha with rfl | ha
      · exact Or.inr ⟨p, List.mem_cons_self p l, rfl⟩
      · exact Or.inl (List.mem_cons_of_mem p ha)
    · rw [setFirstById, if_neg h] at ha
      rcases List.mem_cons.mp ha with rfl | ha
      · exact Or.inl (List.mem_cons_self a l)
      · rcases ih a ha with h' | ⟨q, hq, rfl⟩
        · exact Or.inl (List.mem_cons_of_mem p h')
        · exact Or.inr ⟨q, List.mem_cons_of_mem p hq, rfl⟩

theorem update_product_fst_ids (pid : Int) (fld nv : String) (ps : List Product) :
    idsOf (update_product pid fld nv ps).1 = idsOf ps := by
  rw [update_product]
  cases get_product_by_id ps pid with
  | none => rfl
  | some q =>
    simp only
    split_ifs
    · exact setFirstById_ids pid (fun p => { p with name := nv }) (fun p => rfl) ps
    · exact setFirstById_ids pid (fun p => { p with desc := nv }) (fun p => rfl) ps
    · cases parseFloatL nv.data with
      | none => rfl
      | some v => exact setFirstById_ids pid (fun p => { p with price := v }) (fun p => rfl) ps
    · cases parseIntL nv.data with
      | none => rfl
      | some v => exact setFirstById_ids pid (fun p => { p with quantity := v }) (fun p => rfl) ps
    · rfl

theorem update_product_fst_prices (pid : Int) (fld nv : String) (ps : List Product)
    (h : ∀ p ∈ ps, IsDecimal p.price) :
    ∀ p' ∈ (update_product pid fld nv ps).1, IsDecimal p'.price := by
  rw [update_product]
  cases get_product_by_id ps pid with
  | none => exact h
  | some q =>
    simp only
    split_ifs
    · intro p' hp'
      rcases setFirstById_mem _ _ _ p' hp' with hm | ⟨p, hp, rfl⟩
      · exact h p' hm
      · exact h p hp
    · intro p' hp'
      rcases setFirstById_mem _ _ _ p' hp' with hm | ⟨p, hp, rfl⟩
      · exact h p' hm
      · exact h p hp
    · cases hv : parseFloatL nv.data with
      | none => exact h
      | some v =>
        intro p' hp'
        rcases setFirstById_mem _ _ _ p' hp' with hm | ⟨p, hp, rfl⟩
        · exact h p' hm
        · exact parseFloatL_isDecimal nv.data v hv
    · cases parseIntL nv.data with
      | none => exact h
      | some v =>
        intro p' hp'
        rcases setFirstById_mem _ _ _ p' hp' with hm | ⟨p, hp, rfl⟩
        · exact h p' hm
        · exact h p hp
    · exact h

theorem reindexFrom_mem_price (n : Int) (l : List Product) :
    ∀ a ∈ reindexFrom n l, ∃ p ∈ l, a.price = p.price := by
  induction l generalizing n with
  | nil => simp [reindexFrom]
  | cons p l ih =>
    intro a ha
    rcases List.mem_cons.mp ha with rfl | ha
    · exact ⟨p, List.mem_cons_self p l, rfl⟩
    · obtain ⟨q, hq, he⟩ := ih (n + 1) a ha
      exact ⟨q, List.mem_cons_of_mem p hq, he⟩

theorem remove_product_ids (pid : Int) (ps : List Product) :
    idsOf (remove_product pid ps) = rangeIds (remove_product pid ps).length := by
  rw [remove_product, idsOf_reindexFrom_one, reindexFrom_length]

theorem get_next_id_of_contiguous (inv : List Product)
    (hids : idsOf inv = rangeIds inv.length) :
    get_next_id inv = (inv.length : Int) + 1 := by
  cases hinv : inv with
  | nil => rfl
  | cons q l =>
    rw [← hinv]
    have hne : inv ≠ [] := by rw [hinv]; simp
    obtain ⟨hub, p, hp, heq⟩ := get_next_id_spec inv hne
    have hmemN : ((inv.length : Int)) ∈ idsOf inv := by
      rw [hids, mem_rangeIds]
      have : 0 < inv.length := by rw [hinv]; simp
      omega
    obtain ⟨pN, hpN, hpNid⟩ := List.mem_map.mp hmemN
    have h1 := hub pN hpN
    have h2 : p.id ∈ idsOf inv := List.mem_map.mpr ⟨p, hp, rfl⟩
    rw [hids, mem_rangeIds] at h2
    rw [hpNid] at h1
    omega

/-- Invariant of all reachable inventories: ids form the contiguous
sequence `1, …, N` in order, and every price denotes a decimal number. -/
theorem reachable_invariant (inv : List Product) (h : Reachable inv) :
    idsOf inv = rangeIds inv.length ∧ ∀ p ∈ inv, IsDecimal p.price := by
  induction h with
  | boot => exact ⟨rfl, fun p hp => absurd hp (List.not_mem_nil p)⟩
  | load inv hr ih =>
    obtain ⟨hids, hdec⟩ := ih
    rw [load_data_save_data inv hdec]
    constructor
    · have hmap : idsOf (inv.map cleanProduct) = idsOf inv := by
        rw [idsOf, idsOf, List.map_map]
        apply List.map_congr_left
        intro p _
        rfl
      rw [hmap, List.length_map, hids]
    · intro p' hp'
      obtain ⟨p, hp, rfl⟩ := List.mem_map.mp hp'
      exact hdec p hp
  | add inv name desc priceS qtyS pv qv hr hp hq ih =>
    obtain ⟨hids, hdec⟩ := ih
    have hgni := get_next_id_of_contiguous inv hids
    constructor
    · rw [show add_product ⟨get_next_id inv, name, desc, pv, qv⟩ inv =
          inv ++ [⟨get_next_id inv, name, desc, pv, qv⟩] from rfl]
      rw [show idsOf (inv ++ [(⟨get_next_id inv, name, desc, pv, qv⟩ : Product)]) =
          idsOf inv ++ [get_next_id inv] from by rw [idsOf, idsOf, List.map_append]; rfl]
      rw [List.length_append, List.length_singleton, rangeIds_succ, hids, hgni]
    · intro p' hp'
      rw [show add_product ⟨get_next_id inv, name, desc, pv, qv⟩ inv =
          inv ++ [⟨get_next_id inv, name, desc, pv, qv⟩] from rfl] at hp'
      rcases List.mem_append.mp hp' with hm | hm
      · exact hdec p' hm
      · have he := List.mem_singleton.mp hm
        subst he
        exact parseFloatL_isDecimal priceS.data pv hp
  | update inv pid fld nv hr ih =>
    obtain ⟨hids, hdec⟩ := ih
    constructor
    · have hlen : (update_product pid fld nv inv).1.length = inv.length := by
        have := update_product_fst_ids pid fld nv inv
        have h1 : (idsOf (update_product pid fld nv inv).1).length = (idsOf inv).length := by
          rw [this]
        simpa [idsOf] using h1
      rw [update_product_fst_ids, hlen, hids]
    · exact update_product_fst_prices pid fld nv inv hdec
  | remove inv pid hr ih =>
    obtain ⟨hids, hdec⟩ := ih
    refine ⟨remove_product_ids pid inv, ?_⟩
    intro p' hp'
    rw [remove_product] at hp'
    obtain ⟨p, hpf, he⟩ := reindexFrom_mem_price 1 _ p' hp'
    rw [he]
    exact hdec p (List.mem_of_mem_filter hpf)

theorem get_product_by_id_decomp (ps : List Product) (pid : Int) (p : Product)
    (h : get_product_by_id ps pid = some p) :
    ∃ l r, ps = l ++ p :: r ∧ (∀ q ∈ l, q.id ≠ pid) ∧ p.id = pid := by
  induction ps with
  | nil => simp [get_product_by_id] at h
  | cons q ps ih =>
    rw [get_product_by_id] at h
    by_cases hq : q.id = pid
    · rw [if_pos hq, Option.some_inj] at h
      subst h
      exact ⟨[], ps, rfl, by simp, hq⟩
    · rw [if_neg hq] at h
      obtain ⟨l, r, rfl, hl, hp⟩ := ih h
      refine ⟨q :: l, r, rfl, ?_, hp⟩
      intro x hx
      rcases List.mem_cons.mp hx with rfl | hx
      · exact hq
      · exact hl x hx

theorem setFirstById_decomp (pid : Int) (f : Product → Product) (l r : List Product)
    (p : Product) (hl : ∀ q ∈ l, q.id ≠ pid) (hp : p.id = pid) :
    setFirstById pid f (l ++ p :: r) = l ++ f p :: r := by
  induction l with
  | nil => simp [setFirstById, hp]
  | cons q l ih =>
    rw [List.cons_append, setFirstById, if_neg (hl q (List.mem_cons_self q l)),
      ih fun x hx => hl x (List.mem_cons_of_mem q hx), List.cons_append]

theorem reindexFrom_eq_self (n : Int) (ps : List Product) :
    idsOf ps = (List.range ps.length).map (fun i : Nat => n + (i : Int)) →
    reindexFrom n ps = ps := by
  induction ps generalizing n with
  | nil => intro _; rfl
  | cons p l ih =>
    intro h
    rw [List.length_cons, List.range_succ_eq_map, List.map_cons, List.map_map] at h
    have hid : p.id = n := by
      have := congrArg List.head? h
      simp [idsOf] at this
      omega
    have htail : idsOf l = (List.range l.length).map fun i : Nat => (n + 1) + (i : Int) := by
      have := congrArg List.tail h
      simp only [idsOf, List.map_cons, List.tail_cons] at this
      rw [show (idsOf l = List.tail (List.map Product.id (p :: l))) from rfl]
      rw [show List.tail (List.map Product.id (p :: l)) = List.map Product.id l from by simp]
      rw [show List.map Product.id l = idsOf l from rfl] at this ⊢
      rw [this]
      apply List.map_congr_left
      intro i _
      show n + ((Nat.succ i : ℕ) : Int) = n + 1 + (i : Int)
      push_cast
      ring
    rw [reindexFrom, ih (n + 1) htail]
    rw [show ({ p with id := n } : Product) = p from by rw [← hid]]

theorem countP_id_eq_count (ps : List Product) (k : Int) :
    ps.countP (fun p => decide (p.id = k)) = (idsOf ps).count k := by
  rw [idsOf, List.count, List.countP_map]
  apply List.countP_congr
  intro p _
  show decide (p.id = k) = true ↔ (p.id == k) = true
  constructor
  · intro h
    have : p.id = k := of_decide_eq_true h
    simp [this]
  · intro h
    have : p.id = k := by simpa using h
    simp [this]

theorem processRows_error (header : List (List Char)) (rows : List (List (List Char)))
    (row : List (List Char)) (e : PyError) (hrow : row ∈ rows) (hne : row ≠ [])
    (herr : rowToProduct header row = .error e) :
    ∀ acc : List Product, (processRows header rows acc).2 ≠ none := by
  induction rows with
  | nil => simp at hrow
  | cons r rows ih =>
    intro acc
    rw [processRows]
    by_cases hr : r = []
    · rw [if_pos hr]
      have hrow' : row ∈ rows := by
        rcases List.mem_cons.mp hrow with rfl | h
        · exact absurd hr hne
        · exact h
      exact ih hrow' acc
    · rw [if_neg hr]
      cases hok : rowToProduct header r with
      | error e' => simp
      | ok p =>
        have hrow' : row ∈ rows := by
          rcases List.mem_cons.mp hrow with rfl | h
          · rw [hok] at herr
            exact absurd herr (by simp)
          · exact h
        exact ih hrow' (acc ++ [p])

/-! ### Claim theorems -/

/-- C1 counterexample: the round trip is not the identity on every product
sequence.  A carriage return inside a description is saved quoted, but the
reading side opens the file without `newline=''`, so universal-newline
translation turns it into a line feed before the csv reader runs: saving
`desc = "x\ry"` loads back `desc = "x\ny"`. -/
theorem C1_roundtrip_counterexample :
    load_data (some (save_data [⟨1, "a", "x\ry", 5, 2⟩])) [] =
      ([⟨1, "a", "x\ny", 5, 2⟩], none) ∧
    ([(⟨1, "a", "x\ny", 5, 2⟩ : Product)], (none : Option PyError)) ≠
      ([⟨1, "a", "x\ry", 5, 2⟩], none) := by
  constructor
  · with_unfolding_all decide
  · decide

/-- C1 amended: Save followed by Load into a fresh inventory yields an
element-wise equal product sequence (id, name, desc, price, quantity) for
every inventory whose names and descriptions contain no carriage-return
character; prices are assumed to denote decimal numbers, which every
Python float does.  (Without the carriage-return restriction the fields
come back with CR and CRLF replaced by LF.) -/
theorem C1_roundtrip (ps : List Product)
    (hcr : ∀ p ∈ ps, '\r' ∉ p.name.data ∧ '\r' ∉ p.desc.data)
    (hdec : ∀ p ∈ ps, IsDecimal p.price) :
    load_data (some (save_data ps)) [] = (ps, none) := by
  rw [load_data_save_data ps hdec]
  have hclean : ∀ p ∈ ps, cleanProduct p = p := by
    intro p hp
    obtain ⟨h1, h2⟩ := hcr p hp
    rw [cleanProduct, unl_eq_self _ (fun c hc e => h1 (e ▸ hc)),
      unl_eq_self _ (fun c hc e => h2 (e ▸ hc))]
  rw [List.map_congr_left hclean]
  simp

/-- C1 amended witness at a two-product inventory exercising quoting. -/
theorem C1_roundtrip_witness :
    load_data (some (save_data [⟨1, "Widget", "A small widget", 19/2, 10⟩,
      ⟨2, "a,b", "say \"hi\"", 5, 2⟩])) [] =
      ([⟨1, "Widget", "A small widget", 19/2, 10⟩, ⟨2, "a,b", "say \"hi\"", 5, 2⟩], none) := by
  apply C1_roundtrip
  · decide
  · intro p hp
    rcases List.mem_cons.mp hp with rfl | hp
    · exact ⟨95, 1, by norm_num⟩
    · rcases List.mem_cons.mp hp with rfl | hp
      · exact ⟨5, 0, by norm_num⟩
      · exact absurd hp (List.not_mem_nil p)

/-- C2: in every inventory reachable by the program's own operations
(first start with no data file; `add` with `get_next_id` and parsed price
and quantity; `update`; `remove`; save on exit and load at the next
startup) the ids are exactly the contiguous sequence `1, …, N` for `N` the
product count, and in particular no id occurs twice. -/
theorem C2_ids_contiguous (inv : List Product) (h : Reachable inv) :
    idsOf inv = rangeIds inv.length ∧ (idsOf inv).Nodup := by
  obtain ⟨hids, _⟩ := reachable_invariant inv h
  exact ⟨hids, by rw [hids]; exact rangeIds_nodup _⟩

/-- C2 witness: a state reached by booting and adding one product. -/
theorem C2_ids_contiguous_witness :
    idsOf [⟨1, "n", "d", 19/2, 3⟩] = rangeIds 1 ∧
    (idsOf [(⟨1, "n", "d", 19/2, 3⟩ : Product)]).Nodup := by
  have hreach : Reachable [⟨1, "n", "d", 19/2, 3⟩] := by
    have hb : Reachable [] := Reachable.boot
    exact Reachable.add [] "n" "d" "9.5" "3" (19/2) 3 hb
      (by with_unfolding_all decide) (by decide)
  exact C2_ids_contiguous _ hreach

/-- C3 counterexample: a non-numeric price typed at the `add` action's
price prompt is NOT caught — `float(price)` in the add branch sits outside
any `try`, so the `ValueError` escapes the loop and the process dies
instead of continuing. -/
theorem C3_counterexample :
    mainStep [] ["add", "n", "d", "x", "1"] = .crashed .valueError [] := by
  decide

/-- C3 amended: a non-numeric id typed at the `view`, `update` or `delete`
prompt, and a non-numeric new value for `price` or `quantity` at the
`update` prompt, are caught locally (`except ValueError`), the action is
aborted with the inventory unchanged and the loop continues; but a
non-numeric price or quantity at the `add` prompts is not caught: the
`ValueError` propagates and the program terminates. -/
theorem C3_parse_errors :
    (∀ (inv : List Product) (idS : String) (rest : List String),
      parseIntL idS.data = none →
      mainStep inv ("view" :: idS :: rest) = .next inv rest ∧
      mainStep inv ("update" :: idS :: rest) = .next inv rest ∧
      mainStep inv ("delete" :: idS :: rest) = .next inv rest) ∧
    (∀ (inv : List Product) (idS fieldS newS : String) (rest : List String)
      (pid : Int) (p : Product),
      parseIntL idS.data = some pid → get_product_by_id inv pid = some p →
      pyLower fieldS = "price" → parseFloatL newS.data = none →
      mainStep inv ("update" :: idS :: fieldS :: newS :: rest) = .next inv rest) ∧
    (∀ (inv : List Product) (idS fieldS newS : String) (rest : List String)
      (pid : Int) (p : Product),
      parseIntL idS.data = some pid → get_product_by_id inv pid = some p →
      pyLower fieldS = "quantity" → parseIntL newS.data = none →
      mainStep inv ("update" :: idS :: fieldS :: newS :: rest) = .next inv rest) ∧
    (∀ (inv : List Product) (nameS descS priceS qtyS : String) (rest : List String),
      parseFloatL priceS.data = none →
      mainStep inv ("add" :: nameS :: descS :: priceS :: qtyS :: rest) =
        .crashed .valueError inv) ∧
    (∀ (inv : List Product) (nameS descS priceS qtyS : String) (rest : List String) (pv : ℚ),
      parseFloatL priceS.data = some pv → parseIntL qtyS.data = none →
      mainStep inv ("add" :: nameS :: descS :: priceS :: qtyS :: rest) =
        .crashed .valueError inv) := by
  have hlv : pyLower "view" = "view" := by decide
  have hlu : pyLower "update" = "update" := by decide
  have hld : pyLower "delete" = "delete" := by decide
  have hla : pyLower "add" = "add" := by decide
  refine ⟨?_, ?_, ?_, ?_, ?_⟩
  · intro inv idS rest hid
    refine ⟨?_, ?_, ?_⟩ <;> simp [mainStep, hid, hlv, hlu, hld]
  · intro inv idS fieldS newS rest pid p hid hfound hfield hnew
    simp [mainStep, hid, hfound, update_product, hfield, hnew, hlu]
  · intro inv idS fieldS newS rest pid p hid hfound hfield hnew
    simp [mainStep, hid, hfound, update_product, hfield, hnew, hlu]
  · intro inv nameS descS priceS qtyS rest hprice
    simp [mainStep, hprice, hla]
  · intro inv nameS descS priceS qtyS rest pv hprice hqty
    simp [mainStep, hprice, hqty, hla]

/-- C3 amended witness: one caught id parse error, one caught update
new-value parse error, one fatal add parse error. -/
theorem C3_parse_errors_witness :
    mainStep [] ["view", "zz"] = .next [] [] ∧
    mainStep [⟨1, "a", "b", 5, 2⟩] ["update", "1", "price", "zz"] =
      .next [⟨1, "a", "b", 5, 2⟩] [] ∧
    mainStep [] ["add", "n", "d", "zz", "1"] = .crashed .valueError [] := by
  refine ⟨(C3_parse_errors.1 [] "zz" [] (by decide)).1, ?_, ?_⟩
  · exact C3_parse_errors.2.1 [⟨1, "a", "b", 5, 2⟩] "1" "price" "zz" [] 1 ⟨1, "a", "b", 5, 2⟩
      (by decide) (by with_unfolding_all decide) (by decide) (by decide)
  · exact C3_parse_errors.2.2.2.1 [] "n" "d" "zz" "1" [] (by decide)

/-- C4: on an inventory whose ids are exactly the set `{1, …, N}` and for
`k` in that range, `remove_product` deletes exactly one product — the one
with id `k` — keeps the remaining records in their sequence order with all
non-id fields intact, and reassigns their ids to the contiguous sequence
`1, …, N-1`. -/
theorem C4_remove_present (ps : List Product) (N : Nat) (k : Int)
    (hlen : ps.length = N) (hperm : (idsOf ps).Perm (rangeIds N))
    (hk1 : 1 ≤ k) (hkN : k ≤ (N : Int)) :
    ps.countP (fun p => decide (p.id = k)) = 1 ∧
    (remove_product k ps).map fieldsOf =
      (ps.filter fun p => decide (p.id ≠ k)).map fieldsOf ∧
    idsOf (remove_product k ps) = rangeIds (N - 1) ∧
    (remove_product k ps).length = N - 1 := by
  have hcount : ps.countP (fun p => decide (p.id = k)) = 1 := by
    rw [countP_id_eq_count, hperm.count_eq k]
    exact List.count_eq_one_of_mem (rangeIds_nodup N) ((mem_rangeIds N k).mpr ⟨hk1, hkN⟩)
  have hfilterlen : (ps.filter fun p => decide (p.id ≠ k)).length = N - 1 := by
    have htot := List.length_eq_countP_add_countP (fun p => decide (p.id = k)) ps
    have hcompl : ps.countP (fun p => ¬ decide (p.id = k)) =
        ps.countP fun p => decide (p.id ≠ k) := by
      apply List.countP_congr
      intro p _
      simp
    rw [← List.countP_eq_length_filter, ← hcompl]
    omega
  have hremlen : (remove_product k ps).length = N - 1 := by
    rw [remove_product, reindexFrom_length, hfilterlen]
  refine ⟨hcount, ?_, ?_, hremlen⟩
  · rw [remove_product, reindexFrom_fields]
  · rw [remove_product_ids, hremlen]

/-- C4 witness on a two-product inventory stored out of id order. -/
theorem C4_remove_present_witness :
    ([(⟨2, "b", "y", 3, 1⟩ : Product), ⟨1, "a", "x", 5, 2⟩].countP
        fun p => decide (p.id = 1)) = 1 ∧
    (remove_product 1 [⟨2, "b", "y", 3, 1⟩, ⟨1, "a", "x", 5, 2⟩]).map fieldsOf =
      ([(⟨2, "b", "y", 3, 1⟩ : Product), ⟨1, "a", "x", 5, 2⟩].filter
        fun p => decide (p.id ≠ 1)).map fieldsOf ∧
    idsOf (remove_product 1 [⟨2, "b", "y", 3, 1⟩, ⟨1, "a", "x", 5, 2⟩]) = rangeIds 1 ∧
    (remove_product 1 [(⟨2, "b", "y", 3, 1⟩ : Product), ⟨1, "a", "x", 5, 2⟩]).length = 1 :=
  C4_remove_present [⟨2, "b", "y", 3, 1⟩, ⟨1, "a", "x", 5, 2⟩] 2 1 (by decide)
    (by decide) (by decide) (by decide)

/-- C5 counterexample: removing an absent id is not a no-op in general —
the renumbering loop still runs, so an inventory whose ids are not already
contiguous is changed. -/
theorem C5_remove_absent_counterexample :
    remove_product 1 [⟨2, "a", "b", 1, 1⟩] = [⟨1, "a", "b", 1, 1⟩] ∧
    [(⟨1, "a", "b", 1, 1⟩ : Product)] ≠ [⟨2, "a", "b", 1, 1⟩] := by
  constructor
  · with_unfolding_all decide
  · decide

/-- C5 amended: removing an absent id deletes nothing and preserves the
sequence order and every non-id field, but stills renumber the ids to
`1, …, N`; it is a complete no-op exactly when the ids already form that
contiguous sequence in order — as they do in every state the program can
reach. -/
theorem C5_remove_absent (ps : List Product) (k : Int) (habs : ∀ p ∈ ps, p.id ≠ k) :
    (remove_product k ps).map fieldsOf = ps.map fieldsOf ∧
    (remove_product k ps).length = ps.length ∧
    idsOf (remove_product k ps) = rangeIds ps.length ∧
    (idsOf ps = rangeIds ps.length → remove_product k ps = ps) := by
  have hfilter : (ps.filter fun p => decide (p.id ≠ k)) = ps := by
    apply List.filter_eq_self.mpr
    intro p hp
    simpa using habs p hp
  rw [remove_product, hfilter]
  refine ⟨reindexFrom_fields 1 ps, reindexFrom_length 1 ps, idsOf_reindexFrom_one ps, ?_⟩
  intro hids
  apply reindexFrom_eq_self
  rw [hids, rangeIds_eq_add_form]

/-- C5 amended witness: absent id, contiguous ids, complete no-op; the
fourth conjunct applied to itself shows the full equation. -/
theorem C5_remove_absent_witness :
    remove_product 7 [(⟨1, "a", "b", 5, 2⟩ : Product)] = [⟨1, "a", "b", 5, 2⟩] :=
  (C5_remove_absent [⟨1, "a", "b", 5, 2⟩] 7 (by decide)).2.2.2 (by decide)

/-- C6: `get_next_id` returns 1 on the empty inventory, and on a nonempty
inventory returns the maximum of the existing ids plus one. -/
theorem C6_get_next_id (ps : List Product) :
    (ps = [] → get_next_id ps = 1) ∧
    ∀ m : Int, (idsOf ps).max? = some m → get_next_id ps = m + 1 := by
  constructor
  · intro h
    subst h
    rfl
  · intro m hm
    haveI : Std.Antisymm ((· : ℤ) ≤ ·) := ⟨fun h1 h2 => le_antisymm h1 h2⟩
    have hiff : (idsOf ps).max? = some m ↔ m ∈ idsOf ps ∧ ∀ b ∈ idsOf ps, b ≤ m :=
      List.max?_eq_some_iff (fun a : Int => le_refl a) (fun a b => max_choice a b)
        (fun a b c => max_le_iff)
    obtain ⟨hmem, hub⟩ := hiff.mp hm
    have hne : ps ≠ [] := by
      intro h
      subst h
      simp [idsOf] at hmem
    obtain ⟨hub', p, hp, heq⟩ := get_next_id_spec ps hne
    obtain ⟨pm, hpm, hpmid⟩ := List.mem_map.mp hmem
    have h1 := hub' pm hpm
    have h2 := hub p.id (List.mem_map.mpr ⟨p, hp, rfl⟩)
    omega

/-- C6 witness: the empty inventory and an inventory with maximum id 7. -/
theorem C6_get_next_id_witness :
    get_next_id [] = 1 ∧
    get_next_id [(⟨7, "a", "b", 5, 2⟩ : Product), ⟨3, "c", "d", 5, 2⟩] = 7 + 1 :=
  ⟨(C6_get_next_id []).1 rfl,
   (C6_get_next_id [⟨7, "a", "b", 5, 2⟩, ⟨3, "c", "d", 5, 2⟩]).2 7 (by decide)⟩

/-- C7: when the id is present, updating `price` (resp. `quantity`) with a
string that does not parse as a decimal (resp. integer) raises the parse
error and leaves the whole inventory unchanged; with a parsable value it
changes only that field of the first product carrying the id. -/
theorem C7_update_parse (ps : List Product) (pid : Int) (p : Product) (nv : String)
    (hfound : get_product_by_id ps pid = some p) :
    (parseFloatL nv.data = none →
      update_product pid "price" nv ps = (ps, some .valueError)) ∧
    (parseIntL nv.data = none →
      update_product pid "quantity" nv ps = (ps, some .valueError)) ∧
    (∀ v : ℚ, parseFloatL nv.data = some v →
      ∃ l r, ps = l ++ p :: r ∧ (∀ q ∈ l, q.id ≠ pid) ∧ p.id = pid ∧
        update_product pid "price" nv ps = (l ++ { p with price := v } :: r, none)) ∧
    (∀ v : Int, parseIntL nv.data = some v →
      ∃ l r, ps = l ++ p :: r ∧ (∀ q ∈ l, q.id ≠ pid) ∧ p.id = pid ∧
        update_product pid "quantity" nv ps = (l ++ { p with quantity := v } :: r, none)) := by
  obtain ⟨l, r, hps, hl, hpid⟩ := get_product_by_id_decomp ps pid p hfound
  refine ⟨?_, ?_, ?_, ?_⟩
  · intro hnone
    rw [update_product, hfound]
    simp [hnone]
  · intro hnone
    rw [update_product, hfound]
    simp [hnone]
  · intro v hv
    refine ⟨l, r, hps, hl, hpid, ?_⟩
    rw [update_product, hfound]
    simp only [hv]
    split_ifs with h1 h2 h3 h4 <;> first
      | exact absurd h1 (by decide)
      | exact absurd h2 (by decide)
      | exact absurd rfl h3
      | rw [hps, setFirstById_decomp pid _ l r p hl hpid]
  · intro v hv
    refine ⟨l, r, hps, hl, hpid, ?_⟩
    rw [update_product, hfound]
    simp only [hv]
    split_ifs with h1 h2 h3 h4 <;> first
      | exact absurd h1 (by decide)
      | exact absurd h2 (by decide)
      | exact absurd h3 (by decide)
      | exact absurd rfl h4
      | rw [hps, setFirstById_decomp pid _ l r p hl hpid]

/-- C7 witness: failing updates of both numeric fields on a two-product
inventory leave it unchanged and report the parse error. -/
theorem C7_update_parse_witness :
    update_product 2 "price" "zz" [⟨1, "a", "b", 5, 2⟩, ⟨2, "c", "d", 7, 4⟩] =
      ([⟨1, "a", "b", 5, 2⟩, ⟨2, "c", "d", 7, 4⟩], some .valueError) ∧
    update_product 2 "quantity" "4.5x" [⟨1, "a", "b", 5, 2⟩, ⟨2, "c", "d", 7, 4⟩] =
      ([⟨1, "a", "b", 5, 2⟩, ⟨2, "c", "d", 7, 4⟩], some .valueError) := by
  have h := C7_update_parse [⟨1, "a", "b", 5, 2⟩, ⟨2, "c", "d", 7, 4⟩] 2 ⟨2, "c", "d", 7, 4⟩
    "zz" (by with_unfolding_all decide)
  have h' := C7_update_parse [⟨1, "a", "b", 5, 2⟩, ⟨2, "c", "d", 7, 4⟩] 2 ⟨2, "c", "d", 7, 4⟩
    "4.5x" (by with_unfolding_all decide)
  exact ⟨h.1 (by decide), h'.2.1 (by decide)⟩

/-- C8: loading from an absent file is no error and leaves a fresh
inventory empty; and whenever the parsed file has a non-blank data row
that fails to convert (non-numeric id, price or quantity, or a missing
column), the load signals an error to the caller instead of silently
skipping or defaulting the row. -/
theorem C8_load_error_handling :
    (∀ inv : List Product, load_data none inv = (inv, none)) ∧
    (∀ (inv : List Product) (content : List Char) (header row : List (List Char))
      (rows : List (List (List Char))) (e : PyError),
      parseRecords (unl content) = header :: rows → row ∈ rows → row ≠ [] →
      rowToProduct header row = .error e →
      (load_data (some content) inv).2 ≠ none) := by
  refine ⟨fun inv => rfl, ?_⟩
  intro inv content header row rows e hparse hrow hne herr
  rw [load_data, hparse]
  exact processRows_error header rows row e hrow hne herr inv

/-- C8 witness: an absent file, and a file whose single data row has a
non-numeric price. -/
theorem C8_load_error_handling_witness :
    load_data none [] = ([], none) ∧
    (load_data (some "id,name,desc,price,quantity\r\n1,a,b,xx,2\r\n".data) []).2 ≠ none := by
  refine ⟨C8_load_error_handling.1 [], ?_⟩
  exact C8_load_error_handling.2 [] "id,name,desc,price,quantity\r\n1,a,b,xx,2\r\n".data
    hdrCells [['1'], ['a'], ['b'], ['x', 'x'], ['2']] [[['1'], ['a'], ['b'], ['x', 'x'], ['2']]]
    .valueError (by decide) (by decide) (by decide) rfl

/-- C9: when the id is present but the field name is none of `name`,
`desc`, `price`, `quantity`, the update falls through every branch: it
does not raise and leaves the inventory completely unchanged. -/
theorem C9_update_unknown_field (ps : List Product) (pid : Int) (p : Product)
    (fld nv : String) (hfound : get_product_by_id ps pid = some p)
    (h1 : fld ≠ "name") (h2 : fld ≠ "desc") (h3 : fld ≠ "price") (h4 : fld ≠ "quantity") :
    update_product pid fld nv ps = (ps, none) := by
  rw [update_product, hfound]
  simp [h1, h2, h3, h4]

/-- C9 witness: unrecognized field `color` on a present id. -/
theorem C9_update_unknown_field_witness :
    update_product 1 "color" "red" [(⟨1, "a", "b", 5, 2⟩ : Product)] =
      ([⟨1, "a", "b", 5, 2⟩], none) :=
  C9_update_unknown_field [⟨1, "a", "b", 5, 2⟩] 1 ⟨1, "a", "b", 5, 2⟩ "color" "red"
    (by with_unfolding_all decide) (by decide) (by decide) (by decide) (by decide)

/-- C10: when no product carries the id, `update_product` silently does
nothing for every field name and every new value — the value is never
parsed, so even an unparsable numeric string raises nothing and the
inventory is unchanged. -/
theorem C10_update_absent_id (ps : List Product) (pid : Int) (fld nv : String)
    (habs : get_product_by_id ps pid = none) :
    update_product pid fld nv ps = (ps, none) := by
  rw [update_product, habs]

/-- C10 witness: absent id with an unparsable price string. -/
theorem C10_update_absent_id_witness :
    update_product 9 "price" "not-a-number" [(⟨1, "a", "b", 5, 2⟩ : Product)] =
      ([⟨1, "a", "b", 5, 2⟩], none) :=
  C10_update_absent_id [⟨1, "a", "b", 5, 2⟩] 9 "price" "not-a-number"
    (by with_unfolding_all decide)

end Webbshop
